import Mathlib

/-!
Verification of the OSDR filter-options generator
(src/osdr_filter_options_generator.py) against its design specification.

Strings are modelled as lists of Unicode code points (List Nat); the helper
str converts a Lean string literal to this representation.  Character-level
operations (lowercasing, whitespace for strip) are modelled on the ASCII
range, which covers every literal the program manipulates.
-/

abbrev Str := List Nat

def str (s : String) : Str := s.data.map Char.toNat

/-- Whitespace as stripped by Python str.strip on the ASCII range
(space, tab, LF, VT, FF, CR). -/
def isPySpace (c : Nat) : Bool :=
  decide (c = 32 ∨ c = 9 ∨ c = 10 ∨ c = 11 ∨ c = 12 ∨ c = 13)

/-- ASCII lowercasing of one code point, modelling str.lower. -/
def lowerChar (c : Nat) : Nat := if 65 ≤ c ∧ c ≤ 90 then c + 32 else c

def lowerStr (s : Str) : Str := s.map lowerChar

def stripLeft (s : Str) : Str := s.dropWhile isPySpace

def stripRight : Str → Str
  | [] => []
  | c :: t =>
    match stripRight t with
    | [] => if isPySpace c then [] else [c]
    | c' :: t' => c :: c' :: t'

/-- Models Python str.strip (removal of whitespace at both ends). -/
def strip (s : Str) : Str := stripRight (stripLeft s)

/-- Embeds norm (source lines 151-155): empty or absent input yields the
empty key, otherwise strip then lowercase. -/
def norm (s : Str) : Str := if s = [] then [] else lowerStr (strip s)

theorem norm_def (s : Str) : norm s = if s = [] then [] else lowerStr (strip s) := rfl

theorem lowerChar_idem (c : Nat) : lowerChar (lowerChar c) = lowerChar c := by
  unfold lowerChar
  split
  · split <;> omega
  · rfl

theorem isPySpace_lowerChar (c : Nat) : isPySpace (lowerChar c) = isPySpace c := by
  unfold lowerChar
  split
  · simp only [isPySpace, decide_eq_decide]
    omega
  · rfl

theorem dropWhile_isPySpace_idem (l : Str) :
    (l.dropWhile isPySpace).dropWhile isPySpace = l.dropWhile isPySpace := by
  induction l with
  | nil => rfl
  | cons c t ih =>
    by_cases h : isPySpace c
    · simp [List.dropWhile_cons, h, ih]
    · simp [List.dropWhile_cons, h]

theorem stripLeft_idem (l : Str) : stripLeft (stripLeft l) = stripLeft l :=
  dropWhile_isPySpace_idem l

theorem stripRight_cons (c : Nat) (t : Str) :
    stripRight (c :: t) =
      match stripRight t with
      | [] => if isPySpace c then [] else [c]
      | c' :: t' => c :: c' :: t' := rfl

theorem stripRight_idem (l : Str) : stripRight (stripRight l) = stripRight l := by
  induction l with
  | nil => rfl
  | cons c t ih =>
    rw [stripRight_cons]
    cases h : stripRight t with
    | nil =>
      by_cases hc : isPySpace c
      · simp [hc, stripRight]
      · simp [hc, stripRight]
    | cons c' t' =>
      rw [h] at ih
      simp only
      rw [stripRight_cons, ih]

theorem stripRight_head (c : Nat) (t : Str) :
    stripRight (c :: t) = [] ∨ ∃ t', stripRight (c :: t) = c :: t' := by
  unfold stripRight
  cases stripRight t with
  | nil =>
    by_cases hc : isPySpace c
    · left; simp [hc]
    · right; exact ⟨[], by simp [hc]⟩
  | cons c' t' => right; exact ⟨c' :: t', rfl⟩

theorem dropWhile_eq_cons_head {p : Nat → Bool} {l : Str} {c : Nat} {t : Str}
    (h : l.dropWhile p = c :: t) : p c = false := by
  induction l with
  | nil => simp at h
  | cons a l ih =>
    by_cases ha : p a
    · simp [List.dropWhile_cons, ha] at h
      exact ih h
    · simp [List.dropWhile_cons, ha] at h
      rw [← h.1]
      simpa using ha

theorem stripLeft_stripRight_stripLeft (s : Str) :
    stripLeft (stripRight (stripLeft s)) = stripRight (stripLeft s) := by
  cases h : stripLeft s with
  | nil => simp [stripRight, stripLeft]
  | cons c t =>
    have hc : isPySpace c = false := dropWhile_eq_cons_head h
    rcases stripRight_head c t with h2 | ⟨t', h2⟩
    · simp [h2, stripLeft]
    · simp [h2, stripLeft, List.dropWhile_cons, hc]

theorem strip_idem (s : Str) : strip (strip s) = strip s := by
  unfold strip
  rw [stripLeft_stripRight_stripLeft, stripRight_idem]

theorem dropWhile_isPySpace_map_lower (l : Str) :
    (l.map lowerChar).dropWhile isPySpace = (l.dropWhile isPySpace).map lowerChar := by
  induction l with
  | nil => rfl
  | cons c t ih =>
    by_cases h : isPySpace c
    · simp [List.dropWhile_cons, h, isPySpace_lowerChar, ih]
    · simp [List.dropWhile_cons, h, isPySpace_lowerChar]

theorem stripRight_map_lower (l : Str) :
    stripRight (l.map lowerChar) = (stripRight l).map lowerChar := by
  induction l with
  | nil => rfl
  | cons c t ih =>
    simp only [List.map_cons]
    rw [stripRight_cons, stripRight_cons, ih]
    cases h : stripRight t with
    | nil => by_cases hc : isPySpace c <;> simp [isPySpace_lowerChar, hc]
    | cons c' t' => simp

theorem strip_lowerStr (s : Str) : strip (lowerStr s) = lowerStr (strip s) := by
  unfold strip stripLeft lowerStr
  rw [dropWhile_isPySpace_map_lower, stripRight_map_lower]

theorem lowerStr_idem (s : Str) : lowerStr (lowerStr s) = lowerStr s := by
  unfold lowerStr
  rw [List.map_map]
  exact List.map_congr_left (fun c _ => lowerChar_idem c)

/-- Python substring containment: sub occurs contiguously in s (models the
expression sub in s for strings). -/
def containsSub (s sub : Str) : Bool :=
  if sub.isPrefixOf s then true
  else
    match s with
    | [] => false
    | _ :: t => containsSub t sub

def containsAny (s : Str) (subs : List Str) : Bool := subs.any (containsSub s)

/-- The closed set of taxonomy groupings (keys of the structure and
new_json dictionaries). -/
inductive Grouping where
  | projectType
  | assayTech
  | factor
  | organism
  | materialType
  | mission
deriving DecidableEq

/-- A grouping's categories: an insertion-ordered dictionary from category
name to its set of raw values (Python dict of str to set). -/
abbrev Cats := List (Str × List Str)

abbrev Index := Grouping → Cats

/-- Dictionary lookup with the defaultdict read behaviour: a missing
category reads as the empty set. -/
def getCat : Cats → Str → List Str
  | [], _ => []
  | (k', vs) :: rest, k => if k' = k then vs else getCat rest k

/-- Set insertion of value v into the category k (created at the end if
missing, as Python dict insertion order does). -/
def addVal : Cats → Str → Str → Cats
  | [], k, v => [(k, [v])]
  | (k', vs) :: rest, k, v =>
    if k' = k then (k', if v ∈ vs then vs else vs ++ [v]) :: rest
    else (k', vs) :: addVal rest k v

/-- Creates an empty category entry if the key is missing (models the
explicit structure-grouping-category = set() initialization). -/
def ensureCat : Cats → Str → Cats
  | [], k => [(k, [])]
  | (k', vs) :: rest, k =>
    if k' = k then (k', vs) :: rest else (k', vs) :: ensureCat rest k

def updateIdx (idx : Index) (g : Grouping) (cs : Cats) : Index :=
  fun g' => if g' = g then cs else idx g'

/-- One node of the downloaded taxonomy document: an optional displayValue
(the dict key may be absent), raw values and nested children.  The values
and children keys read as empty when absent, which is observationally the
same as an empty list here. -/
inductive Node where
  | mk (displayValue : Option Str) (values : List Str) (children : List Node)

def Node.displayValue : Node → Option Str
  | .mk d _ _ => d

def Node.values : Node → List Str
  | .mk _ v _ => v

def Node.children : Node → List Node
  | .mk _ _ c => c

/-- Embeds the category-name expression of source line 193: the child's
displayValue if the key is present, otherwise its first raw value if the
values list is non-empty, otherwise the empty string. -/
def rawName (child : Node) : Str :=
  child.displayValue.getD
    (match child.values with
     | [] => []
     | v :: _ => v)

/-- Embeds lines 193-196: the raw derived name with the empty-name guard
replacing it by the literal Uncategorized. -/
def categoryName (child : Node) : Str :=
  let c := rawName child
  if c = [] then str "Uncategorized" else c

/-- Adds every non-empty value of the list to category k (the value loops
of lines 202-204 and 214-216). -/
def addValues (k : Str) (acc : Cats) (vals : List Str) : Cats :=
  vals.foldl (fun a val => if val = [] then a else addVal a k val) acc

/-- Embeds the nested-children loop body of lines 207-216: the
subcategory name has no Uncategorized guard and the compound key joins
category and subcategory with a pipe. -/
def processSubchild (category : Str) (acc : Cats) (subchild : Node) : Cats :=
  let subcategory := rawName subchild
  let fullCategory := category ++ str "|" ++ subcategory
  addValues fullCategory (ensureCat acc fullCategory) subchild.values

/-- Embeds the child-processing loop of extract_existing_structure
(source lines 192-216) over one grouping's category dictionary. -/
def processChild (cs : Cats) (child : Node) : Cats :=
  let category := categoryName child
  child.children.foldl (processSubchild category)
    (addValues category (ensureCat cs category) child.values)

/-- Embeds the grouping-recognition chain of source lines 175-186. -/
def identifyGrouping (display : Str) (values : List Str) : Option Grouping :=
  if str "Project Type" ∈ values then some .projectType
  else if containsSub display (str "Assay Type") ∨ str "Study Assay Technology Type" ∈ values then
    some .assayTech
  else if str "organism" ∈ values then some .organism
  else if containsSub display (str "Tissue") ∨ str "material type" ∈ values then
    some .materialType
  else if containsSub display (str "Factor") ∨ str "Study Factor Name" ∈ values then
    some .factor
  else none

/-- Embeds one iteration of the top-level item loop (lines 171-216): an
unrecognized item is skipped, a recognized one has its children folded
into its grouping's categories. -/
def processItem (idx : Index) (item : Node) : Index :=
  match identifyGrouping (item.displayValue.getD []) item.values with
  | none => idx
  | some g => updateIdx idx g (item.children.foldl processChild (idx g))

def emptyIndex : Index := fun _ => []

/-- Embeds extract_existing_structure (lines 157-223) over the study
section of the current JSON.  The five pre-existing groupings start as
empty dictionaries; Mission is never touched by the extractor. -/
def extractExistingStructure (study : List Node) : Index :=
  study.foldl processItem emptyIndex

/-- Embeds initialize_from_existing (lines 225-241): a value-wise copy of
the extracted structure plus a fresh empty Mission grouping. -/
def initializeFromExisting (existing : Index) : Index :=
  fun g => match g with
  | .mission => []
  | g => existing g

/-- Embeds find_category_for_value (lines 243-256): first category of the
snapshot index whose value set contains a normalized match. -/
def findCategoryForValue (existing : Index) (value : Str) (g : Grouping) : Option Str :=
  let normVal := norm value
  ((existing g).find? (fun p => p.2.any (fun ev => norm ev == normVal))).map Prod.fst

/-- Mutable run state of the generator: the growing output index and the
tracking accumulators (additions, unmapped, all_osd_ids). -/
structure GenState where
  new_json : Index
  additions : List (Grouping × Str × Str)
  unmapped : List (Grouping × Str × Str)
  all_osd_ids : List Str

/-- Set insertion into the covered-identifier accumulator. -/
def addId (ids : List Str) (i : Str) : List Str :=
  if i ∈ ids then ids else ids ++ [i]

/-- The run state right after initialization: new_json is the snapshot
copy, all accumulators empty. -/
def initState (existing : Index) : GenState :=
  ⟨initializeFromExisting existing, [], [], []⟩

/-- An observation feed: a column list and data rows (row 0 is the
subject identifier).  Rows are aligned to the columns per the validated
API shape; out-of-range reads are modelled as the empty string. -/
structure Feed where
  columns : List Str
  data : List (List Str)

def rowGet (row : List Str) (i : Nat) : Str := row.getD i []

/-- Embeds the shared per-row body of the assay, organism and material
loops (for assays, source lines 265-284): skip empty values, record the
subject identifier, then route the value through find_category_for_value
with a raw-string presence guard on the output side. -/
def reconcileRow (existing : Index) (g : Grouping) (fallback : Str) (colIdx : Nat)
    (st : GenState) (row : List Str) : GenState :=
  let osdId := rowGet row 0
  let value := rowGet row colIdx
  if value = [] then st
  else
    let st1 := { st with all_osd_ids := addId st.all_osd_ids osdId }
    match findCategoryForValue existing value g with
    | some category =>
      if value ∈ getCat (st1.new_json g) category then st1
      else
        { st1 with
          new_json := updateIdx st1.new_json g (addVal (st1.new_json g) category value)
          additions := st1.additions ++ [(g, category, value)] }
    | none =>
      if value ∈ getCat (st1.new_json g) fallback then st1
      else
        { st1 with
          new_json := updateIdx st1.new_json g (addVal (st1.new_json g) fallback value)
          unmapped := st1.unmapped ++ [(g, value, osdId)] }

def assayColName : Str := str "investigation.study assays.study assay technology type"

def organismColName : Str := str "study.characteristics.organism"

def materialColName : Str := str "study.characteristics.material type"

def missionColName : Str := str "investigation.study.comment.project identifier"

/-- Embeds the assay section of process_api_data (lines 263-284); none
models the exception raised when the required column is missing. -/
def processAssays (existing : Index) (feed : Feed) (st : GenState) : Option GenState :=
  (feed.columns.findIdx? (· == assayColName)).map
    (fun colIdx =>
      feed.data.foldl (reconcileRow existing .assayTech (str "Other Assay Types") colIdx) st)

/-- Embeds the organism section (lines 303-322). -/
def processOrganisms (existing : Index) (feed : Feed) (st : GenState) : Option GenState :=
  (feed.columns.findIdx? (· == organismColName)).map
    (fun colIdx =>
      feed.data.foldl (reconcileRow existing .organism (str "Other Organisms") colIdx) st)

/-- Embeds the material-type section (lines 325-344). -/
def processMaterials (existing : Index) (feed : Feed) (st : GenState) : Option GenState :=
  (feed.columns.findIdx? (· == materialColName)).map
    (fun colIdx =>
      feed.data.foldl (reconcileRow existing .materialType (str "Other Materials") colIdx) st)

/-- Splits a string at every occurrence of the separator code point,
as Python str.split with a one-character separator. -/
def splitOnChar (sep : Nat) : Str → List Str
  | [] => [[]]
  | c :: t =>
    let r := splitOnChar sep t
    if c = sep then [] :: r
    else
      match r with
      | [] => [[c]]
      | h :: t' => (c :: h) :: t'

/-- The substring after the last dot of a column name (Python
col.split with a dot, last element). -/
def lastSegment (s : Str) : Str := (splitOnChar 46 s).getLastD []

/-- Embeds the per-factor-name body of the factor section (lines
289-300): no subject identifiers are recorded and unmapped factor names
carry the literal schema tag. -/
def reconcileFactor (existing : Index) (st : GenState) (factorName : Str) : GenState :=
  match findCategoryForValue existing factorName .factor with
  | some category =>
    if factorName ∈ getCat (st.new_json .factor) category then st
    else
      { st with
        new_json := updateIdx st.new_json .factor (addVal (st.new_json .factor) category factorName)
        additions := st.additions ++ [(.factor, category, factorName)] }
  | none =>
    if factorName ∈ getCat (st.new_json .factor) (str "other") then st
    else
      { st with
        new_json := updateIdx st.new_json .factor (addVal (st.new_json .factor) (str "other") factorName)
        unmapped := st.unmapped ++ [(.factor, factorName, str "schema")] }

/-- The factor names of a feed: every column whose lowercased name
contains factor value, taken after its last dot (lines 288-290). -/
def factorNames (feed : Feed) : List Str :=
  (feed.columns.filter (fun col => containsSub (lowerStr col) (str "factor value"))).map lastSegment

/-- Embeds the factor section of process_api_data (lines 286-300); the
factor feed has no required column, so it cannot raise. -/
def processFactors (existing : Index) (feed : Feed) (st : GenState) : GenState :=
  (factorNames feed).foldl (reconcileFactor existing) st

/-- Embeds the mission keyword classifier (lines 365-389): the first
matching rule in the fixed priority order, defaulting to Other Missions. -/
def categorizeMission (mission : Str) : Str :=
  let ml := norm mission
  if containsAny ml [str "expedition", str "increment", str "iss"] then str "ISS Expeditions"
  else if containsAny ml [str "sts-", str "sts ", str "shuttle", str "sls-"] then
    str "Space Shuttle"
  else if (str "RR-").isPrefixOf mission ∨ containsSub ml (str "rodent research") then
    str "Rodent Research"
  else if containsAny ml [str "bion", str "cosmos"] then str "Bion/Cosmos"
  else if containsAny ml [str "bric-", str "apex-", str "veg-", str "ffl", str "cbtm", str "cerise"] then
    str "Payload Investigations"
  else if containsAny ml [str "ground", str "bsl", str "baseline"] then str "Ground Control"
  else if containsAny ml [str "gamma_irradiation", str "heavy_ion", str "hze",
      str "proton_irradiation", str "x-ray_irradiation", str "irradiation", str "radiation"] then
    str "Radiation Studies"
  else if containsAny ml [str "hindlimb_unloading", str "simulated_microgravity",
      str "simulated_hypergravity", str "simulated_environmental"] then
    str "Simulated Conditions"
  else if containsAny ml [str "inspiration4", str "axiom", str "ax-", str "spacex"] then
    str "Commercial Spaceflight"
  else str "Other Missions"

/-- Embeds the per-piece body of the mission loop (lines 361-394):
empty pieces are skipped, insertion is guarded by raw presence, and only
pieces placed in Other Missions are recorded as unmapped. -/
def reconcileMissionPiece (osdId : Str) (st : GenState) (mission : Str) : GenState :=
  if mission = [] then st
  else
    let category := categorizeMission mission
    if mission ∈ getCat (st.new_json .mission) category then st
    else
      let st1 :=
        { st with
          new_json := updateIdx st.new_json .mission (addVal (st.new_json .mission) category mission) }
      if category = str "Other Missions" then
        { st1 with unmapped := st1.unmapped ++ [(.mission, mission, osdId)] }
      else st1

/-- Embeds one iteration of the mission row loop (lines 349-394). -/
def reconcileMissionRow (colIdx : Nat) (st : GenState) (row : List Str) : GenState :=
  let osdId := rowGet row 0
  let missionsStr := rowGet row colIdx
  if missionsStr = [] then st
  else
    let st1 := { st with all_osd_ids := addId st.all_osd_ids osdId }
    let missions := (splitOnChar 44 missionsStr).map strip
    missions.foldl (reconcileMissionPiece osdId) st1

/-- Embeds the mission section of process_api_data (lines 346-394). -/
def processMissions (feed : Feed) (st : GenState) : Option GenState :=
  (feed.columns.findIdx? (· == missionColName)).map
    (fun colIdx => feed.data.foldl (reconcileMissionRow colIdx) st)

/-- The five observation feeds consumed by one run. -/
structure Feeds where
  assay : Feed
  factor : Feed
  organism : Feed
  material : Feed
  mission : Feed

/-- Embeds process_api_data (lines 258-394) in its source order: assays,
factors, organisms, materials, missions; none models an uncaught
exception (a missing required column). -/
def processApiData (existing : Index) (feeds : Feeds) (st : GenState) : Option GenState :=
  (processAssays existing feeds.assay st).bind (fun st1 =>
    let st2 := processFactors existing feeds.factor st1
    (processOrganisms existing feeds.organism st2).bind (fun st3 =>
      (processMaterials existing feeds.material st3).bind (fun st4 =>
        processMissions feeds.mission st4)))

def fiveGroupings : List Grouping :=
  [.projectType, .assayTech, .factor, .organism, .materialType]

/-- All normalized values appearing in the given groupings of an index. -/
def normsOf (idx : Index) (gs : List Grouping) : List Str :=
  gs.foldr (fun g acc => (idx g).foldr (fun p a => p.2.map norm ++ a) acc) []

/-- Embeds verify_completeness (lines 396-442): success iff the set
difference original minus new (both over the five original groupings,
under normalization) is empty. -/
def verifyCompleteness (existing : Index) (newJson : Index) : Bool :=
  (normsOf existing fiveGroupings).all (fun v => v ∈ normsOf newJson fiveGroupings)

/-- A lexicographic order on code-point strings, as Python sorted uses. -/
def strLe : Str → Str → Bool
  | [], _ => true
  | _ :: _, [] => false
  | x :: xs, y :: ys => if x < y then true else if y < x then false else strLe xs ys

def groupingOrder : List Grouping :=
  [.projectType, .assayTech, .factor, .organism, .materialType, .mission]

/-- Embeds generate_output_json (lines 444-458): groupings in fixed
order, categories and values sorted. -/
def generateOutputJson (newJson : Index) : List (Grouping × List (Str × List Str)) :=
  groupingOrder.map (fun g =>
    (g, ((newJson g).map (fun p => (p.1, p.2.mergeSort strLe))).mergeSort
        (fun a b => strLe a.1 b.1)))

/-- The data content of the three output artifacts of save_outputs
(lines 460-541); the textual report rendering and file writing are the
out-of-scope I/O collaborators of the spec. -/
structure Artifacts where
  filterOptionsNew : List (Grouping × List (Str × List Str))
  additionsReport : List (Grouping × Str × Str)
  unmappedReport : List (Grouping × Str × Str)

def saveOutputs (st : GenState) : Artifacts :=
  ⟨generateOutputJson st.new_json, st.additions, st.unmapped⟩

/-- Embeds run (lines 543-562): process, verify, save, and report the
verification verdict; none models an uncaught exception during
processing. -/
def run (existing : Index) (feeds : Feeds) (st : GenState) : Option (Bool × Artifacts) :=
  (processApiData existing feeds st).map
    (fun st' => (verifyCompleteness existing st'.new_json, saveOutputs st'))

/-- Embeds the exit-code logic of main (lines 565-581): 0 on a
successful, complete run, 1 on a verification failure or any unhandled
error. -/
def mainExit (existing : Index) (feeds : Feeds) (st : GenState) : Nat :=
  match run existing feeds st with
  | some (true, _) => 0
  | some (false, _) => 1
  | none => 1

theorem getCat_ensureCat (cs : Cats) (k k' : Str) :
    getCat (ensureCat cs k) k' = getCat cs k' := by
  induction cs with
  | nil =>
    by_cases h : k = k'
    · subst h
      simp [ensureCat, getCat]
    · simp [ensureCat, getCat, h]
  | cons p rest ih =>
    obtain ⟨a, vs⟩ := p
    by_cases h : a = k
    · simp [ensureCat, h]
    · by_cases h2 : a = k'
      · subst h2
        simp [ensureCat, getCat, h]
      · simp [ensureCat, getCat, h, h2, ih]

theorem mem_getCat_addVal (cs : Cats) (k v k' u : Str) :
    u ∈ getCat (addVal cs k v) k' ↔ u ∈ getCat cs k' ∨ (k' = k ∧ u = v) := by
  induction cs with
  | nil =>
    by_cases h : k = k'
    · subst h
      simp [addVal, getCat]
    · have hk : ¬(k' = k ∧ u = v) := fun hc => h hc.1.symm
      simp [addVal, getCat, h, hk]
  | cons p rest ih =>
    obtain ⟨a, vs⟩ := p
    by_cases h : a = k
    · subst h
      by_cases h2 : a = k'
      · subst h2
        by_cases hv : v ∈ vs
        · simp only [addVal, if_pos rfl, if_pos hv, getCat, List.mem_cons]
          constructor
          · exact fun hu => Or.inl hu
          · rintro (hu | ⟨-, hu⟩)
            · exact hu
            · exact hu ▸ hv
        · simp [addVal, getCat, hv, List.mem_append]
      · have hk : ¬(k' = a ∧ u = v) := fun hc => h2 hc.1.symm
        simp [addVal, getCat, h2, hk]
    · by_cases h2 : a = k'
      · subst h2
        have hk : ¬(a = k ∧ u = v) := fun hc => h hc.1
        simp [addVal, getCat, h, hk]
      · simp [addVal, getCat, h, h2, ih]

theorem mem_getCat_addVal_self (cs : Cats) (k v : Str) :
    v ∈ getCat (addVal cs k v) k :=
  (mem_getCat_addVal cs k v k v).mpr (Or.inr ⟨rfl, rfl⟩)

theorem mem_getCat_addVal_of_mem (cs : Cats) (k v k' u : Str)
    (h : u ∈ getCat cs k') : u ∈ getCat (addVal cs k v) k' :=
  (mem_getCat_addVal cs k v k' u).mpr (Or.inl h)

theorem getCat_updateIdx (idx : Index) (g : Grouping) (cs : Cats) (g' : Grouping) :
    (updateIdx idx g cs) g' = if g' = g then cs else idx g' := rfl

/-- A run state only ever accumulates: output-index values, covered
identifiers and the two record lists all grow. -/
def grows (s t : GenState) : Prop :=
  (∀ g cat v, v ∈ getCat (s.new_json g) cat → v ∈ getCat (t.new_json g) cat) ∧
  (∀ i, i ∈ s.all_osd_ids → i ∈ t.all_osd_ids) ∧
  (∃ d, t.additions = s.additions ++ d) ∧
  (∃ d, t.unmapped = s.unmapped ++ d)

theorem grows_refl (s : GenState) : grows s s :=
  ⟨fun _ _ _ h => h, fun _ h => h, ⟨[], by simp⟩, ⟨[], by simp⟩⟩

theorem grows_trans {s t u : GenState} (h1 : grows s t) (h2 : grows t u) : grows s u := by
  obtain ⟨m1, i1, ⟨d1, a1⟩, ⟨e1, u1⟩⟩ := h1
  obtain ⟨m2, i2, ⟨d2, a2⟩, ⟨e2, u2⟩⟩ := h2
  exact ⟨fun g c v h => m2 g c v (m1 g c v h), fun i h => i2 i (i1 i h),
    ⟨d1 ++ d2, by rw [a2, a1, List.append_assoc]⟩,
    ⟨e1 ++ e2, by rw [u2, u1, List.append_assoc]⟩⟩

theorem mem_addId (ids : List Str) (i j : Str) (h : j ∈ ids) : j ∈ addId ids i := by
  unfold addId
  split
  · exact h
  · exact List.mem_append_left _ h

theorem self_mem_addId (ids : List Str) (i : Str) : i ∈ addId ids i := by
  unfold addId
  split
  · assumption
  · simp

theorem grows_reconcileRow (existing : Index) (g : Grouping) (fb : Str) (colIdx : Nat)
    (st : GenState) (row : List Str) :
    grows st (reconcileRow existing g fb colIdx st row) := by
  unfold reconcileRow
  dsimp only
  split
  · exact grows_refl st
  · split
    · split
      · exact ⟨fun _ _ _ h => h, fun i h => mem_addId _ _ _ h, ⟨[], by simp⟩, ⟨[], by simp⟩⟩
      · refine ⟨fun g' c v h => ?_, fun i h => mem_addId _ _ _ h, ⟨_, rfl⟩, ⟨[], by simp⟩⟩
        simp only [getCat_updateIdx]
        split
        · next heq => exact heq ▸ mem_getCat_addVal_of_mem _ _ _ _ _ (heq ▸ h)
        · exact h
    · split
      · exact ⟨fun _ _ _ h => h, fun i h => mem_addId _ _ _ h, ⟨[], by simp⟩, ⟨[], by simp⟩⟩
      · refine ⟨fun g' c v h => ?_, fun i h => mem_addId _ _ _ h, ⟨[], by simp⟩, ⟨_, rfl⟩⟩
        simp only [getCat_updateIdx]
        split
        · next heq => exact heq ▸ mem_getCat_addVal_of_mem _ _ _ _ _ (heq ▸ h)
        · exact h

theorem grows_foldl {α : Type} (f : GenState → α → GenState)
    (hf : ∀ s x, grows s (f s x)) :
    ∀ (l : List α) (st : GenState), grows st (l.foldl f st)
  | [], st => grows_refl st
  | x :: t, st => grows_trans (hf st x) (grows_foldl f hf t (f st x))

theorem grows_reconcileFactor (existing : Index) (st : GenState) (fn : Str) :
    grows st (reconcileFactor existing st fn) := by
  unfold reconcileFactor
  split
  · split
    · exact grows_refl st
    · refine ⟨fun g' c v h => ?_, fun i h => h, ⟨_, rfl⟩, ⟨[], by simp⟩⟩
      simp only [getCat_updateIdx]
      split
      · next heq => exact heq ▸ mem_getCat_addVal_of_mem _ _ _ _ _ (heq ▸ h)
      · exact h
  · split
    · exact grows_refl st
    · refine ⟨fun g' c v h => ?_, fun i h => h, ⟨[], by simp⟩, ⟨_, rfl⟩⟩
      simp only [getCat_updateIdx]
      split
      · next heq => exact heq ▸ mem_getCat_addVal_of_mem _ _ _ _ _ (heq ▸ h)
      · exact h

theorem grows_reconcileMissionPiece (osdId : Str) (st : GenState) (m : Str) :
    grows st (reconcileMissionPiece osdId st m) := by
  unfold reconcileMissionPiece
  dsimp only
  split
  · exact grows_refl st
  · split
    · exact grows_refl st
    · split
      · refine ⟨fun g' c v h => ?_, fun i h => h, ⟨[], by simp⟩, ⟨_, rfl⟩⟩
        simp only [getCat_updateIdx]
        split
        · next heq => exact heq ▸ mem_getCat_addVal_of_mem _ _ _ _ _ (heq ▸ h)
        · exact h
      · refine ⟨fun g' c v h => ?_, fun i h => h, ⟨[], by simp⟩, ⟨[], by simp⟩⟩
        simp only [getCat_updateIdx]
        split
        · next heq => exact heq ▸ mem_getCat_addVal_of_mem _ _ _ _ _ (heq ▸ h)
        · exact h

theorem grows_reconcileMissionRow (colIdx : Nat) (st : GenState) (row : List Str) :
    grows st (reconcileMissionRow colIdx st row) := by
  unfold reconcileMissionRow
  dsimp only
  split
  · exact grows_refl st
  · have hmid : grows st { st with all_osd_ids := addId st.all_osd_ids (rowGet row 0) } :=
      ⟨fun _ _ _ h => h, fun i h => mem_addId _ _ _ h, ⟨[], by simp⟩, ⟨[], by simp⟩⟩
    exact grows_trans hmid (grows_foldl _ (fun s x => grows_reconcileMissionPiece _ s x) _ _)

theorem grows_processAssays {existing : Index} {feed : Feed} {st st' : GenState}
    (h : processAssays existing feed st = some st') : grows st st' := by
  obtain ⟨colIdx, -, hfold⟩ := Option.map_eq_some'.mp h
  exact hfold ▸ grows_foldl _ (fun s r => grows_reconcileRow existing _ _ colIdx s r) feed.data st

theorem grows_processOrganisms {existing : Index} {feed : Feed} {st st' : GenState}
    (h : processOrganisms existing feed st = some st') : grows st st' := by
  obtain ⟨colIdx, -, hfold⟩ := Option.map_eq_some'.mp h
  exact hfold ▸ grows_foldl _ (fun s r => grows_reconcileRow existing _ _ colIdx s r) feed.data st

theorem grows_processMaterials {existing : Index} {feed : Feed} {st st' : GenState}
    (h : processMaterials existing feed st = some st') : grows st st' := by
  obtain ⟨colIdx, -, hfold⟩ := Option.map_eq_some'.mp h
  exact hfold ▸ grows_foldl _ (fun s r => grows_reconcileRow existing _ _ colIdx s r) feed.data st

theorem grows_processFactors (existing : Index) (feed : Feed) (st : GenState) :
    grows st (processFactors existing feed st) :=
  grows_foldl _ (fun s fn => grows_reconcileFactor existing s fn) _ st

theorem grows_processMissions {feed : Feed} {st st' : GenState}
    (h : processMissions feed st = some st') : grows st st' := by
  obtain ⟨colIdx, -, hfold⟩ := Option.map_eq_some'.mp h
  exact hfold ▸ grows_foldl _ (fun s r => grows_reconcileMissionRow colIdx s r) feed.data st

theorem grows_processApiData {existing : Index} {feeds : Feeds} {st st' : GenState}
    (h : processApiData existing feeds st = some st') : grows st st' := by
  unfold processApiData at h
  obtain ⟨st1, h1, h⟩ := Option.bind_eq_some.mp h
  obtain ⟨st3, h3, h⟩ := Option.bind_eq_some.mp h
  obtain ⟨st4, h4, h5⟩ := Option.bind_eq_some.mp h
  exact grows_trans (grows_processAssays h1)
    (grows_trans (grows_processFactors existing feeds.factor st1)
      (grows_trans (grows_processOrganisms h3)
        (grows_trans (grows_processMaterials h4) (grows_processMissions h5))))

theorem getCat_addVal_self_of_not_mem (cs : Cats) (k v : Str) (h : v ∉ getCat cs k) :
    getCat (addVal cs k v) k = getCat cs k ++ [v] := by
  induction cs with
  | nil => simp [addVal, getCat]
  | cons p rest ih =>
    obtain ⟨a, vs⟩ := p
    by_cases hak : a = k
    · subst hak
      have hv : v ∉ vs := by simpa [getCat] using h
      simp [addVal, getCat, hv]
    · have h2 : v ∉ getCat rest k := by simpa [getCat, hak] using h
      simp [addVal, getCat, hak, ih h2]

/-- C2: with a normalized category match in the snapshot, the output-side
insertion guard tests raw-string presence: a raw-absent observed value is
appended to the matched category's set and exactly one Addition Record is
recorded, even when only a case variant of it is present. -/
theorem C2_raw_insertion_guard (existing : Index) (g : Grouping) (fb : Str) (colIdx : Nat)
    (st : GenState) (row : List Str) (cat : Str)
    (hv : ¬rowGet row colIdx = [])
    (hcat : findCategoryForValue existing (rowGet row colIdx) g = some cat)
    (habs : rowGet row colIdx ∉ getCat (st.new_json g) cat) :
    getCat ((reconcileRow existing g fb colIdx st row).new_json g) cat =
      getCat (st.new_json g) cat ++ [rowGet row colIdx] ∧
    (reconcileRow existing g fb colIdx st row).additions =
      st.additions ++ [(g, cat, rowGet row colIdx)] := by
  unfold reconcileRow
  dsimp only
  rw [if_neg hv, hcat]
  dsimp only
  rw [if_neg habs]
  refine ⟨?_, rfl⟩
  show getCat (updateIdx st.new_json g (addVal (st.new_json g) cat (rowGet row colIdx)) g) cat = _
  rw [getCat_updateIdx, if_pos rfl]
  exact getCat_addVal_self_of_not_mem _ _ _ habs

/-- Snapshot index for the C2 witness scenario: one Organism category
containing only the capitalized variant. -/
def exC2 : Index :=
  fun g => match g with
  | .organism => [(str "Rodents", [str "Mus musculus"])]
  | _ => []

def rowC2 : List Str := [str "OSD-100", str "mus musculus"]

theorem C2_raw_insertion_guard_witness :
    getCat ((reconcileRow exC2 .organism (str "Other Organisms") 1 (initState exC2) rowC2).new_json
      .organism) (str "Rodents") =
      getCat ((initState exC2).new_json .organism) (str "Rodents") ++ [rowGet rowC2 1] ∧
    (reconcileRow exC2 .organism (str "Other Organisms") 1 (initState exC2) rowC2).additions =
      (initState exC2).additions ++ [(.organism, str "Rodents", rowGet rowC2 1)] :=
  C2_raw_insertion_guard exC2 .organism (str "Other Organisms") 1 (initState exC2) rowC2
    (str "Rodents") (by decide) (by decide) (by decide)

/-- The mission rules of the spec, section 4.4, as an ordered rule table:
each entry is a predicate on the raw piece (rules other than the RR-
prefix consult only the normalized piece) with its target category. -/
def missionRuleList : List ((Str → Bool) × Str) :=
  [(fun m => containsAny (norm m) [str "expedition", str "increment", str "iss"],
    str "ISS Expeditions"),
   (fun m => containsAny (norm m) [str "sts-", str "sts ", str "shuttle", str "sls-"],
    str "Space Shuttle"),
   (fun m => (str "RR-").isPrefixOf m || containsSub (norm m) (str "rodent research"),
    str "Rodent Research"),
   (fun m => containsAny (norm m) [str "bion", str "cosmos"], str "Bion/Cosmos"),
   (fun m => containsAny (norm m)
      [str "bric-", str "apex-", str "veg-", str "ffl", str "cbtm", str "cerise"],
    str "Payload Investigations"),
   (fun m => containsAny (norm m) [str "ground", str "bsl", str "baseline"],
    str "Ground Control"),
   (fun m => containsAny (norm m) [str "gamma_irradiation", str "heavy_ion", str "hze",
      str "proton_irradiation", str "x-ray_irradiation", str "irradiation", str "radiation"],
    str "Radiation Studies"),
   (fun m => containsAny (norm m) [str "hindlimb_unloading", str "simulated_microgravity",
      str "simulated_hypergravity", str "simulated_environmental"],
    str "Simulated Conditions"),
   (fun m => containsAny (norm m) [str "inspiration4", str "axiom", str "ax-", str "spacex"],
    str "Commercial Spaceflight")]

/-- First matching rule of the table wins; no match falls to the default
Other Missions category (the spec-side statement of the classifier). -/
def classifyBySpecRules (m : Str) : Str :=
  match missionRuleList.find? (fun r => r.1 m) with
  | some r => r.2
  | none => str "Other Missions"

theorem classifyBySpecRules_eq (m : Str) : classifyBySpecRules m = categorizeMission m := by
  unfold classifyBySpecRules missionRuleList categorizeMission
  dsimp only
  by_cases h1 : containsAny (norm m) [str "expedition", str "increment", str "iss"]
  · simp [List.find?, h1]
  · by_cases h2 : containsAny (norm m) [str "sts-", str "sts ", str "shuttle", str "sls-"]
    · simp [List.find?, h1, h2]
    · by_cases h3 : ((str "RR-").isPrefixOf m || containsSub (norm m) (str "rodent research")) = true
      · have h3p : str "RR-" <+: m ∨ containsSub (norm m) (str "rodent research") = true := by
          rcases Bool.or_eq_true_iff.mp h3 with h | h
          · exact Or.inl (List.isPrefixOf_iff_prefix.mp h)
          · exact Or.inr h
        simp [List.find?, h1, h2, h3, h3p]
      · have h3p : ¬(str "RR-" <+: m ∨ containsSub (norm m) (str "rodent research") = true) := by
          intro hc
          apply h3
          rcases hc with h | h
          · exact Bool.or_eq_true_iff.mpr (Or.inl (List.isPrefixOf_iff_prefix.mpr h))
          · exact Bool.or_eq_true_iff.mpr (Or.inr h)
        by_cases h4 : containsAny (norm m) [str "bion", str "cosmos"]
        · simp [List.find?, h1, h2, h3, h3p, h4]
        · by_cases h5 : containsAny (norm m)
              [str "bric-", str "apex-", str "veg-", str "ffl", str "cbtm", str "cerise"]
          · simp [List.find?, h1, h2, h3, h3p, h4, h5]
          · by_cases h6 : containsAny (norm m) [str "ground", str "bsl", str "baseline"]
            · simp [List.find?, h1, h2, h3, h3p, h4, h5, h6]
            · by_cases h7 : containsAny (norm m) [str "gamma_irradiation", str "heavy_ion",
                  str "hze", str "proton_irradiation", str "x-ray_irradiation",
                  str "irradiation", str "radiation"]
              · simp [List.find?, h1, h2, h3, h3p, h4, h5, h6, h7]
              · by_cases h8 : containsAny (norm m) [str "hindlimb_unloading",
                    str "simulated_microgravity", str "simulated_hypergravity",
                    str "simulated_environmental"]
                · simp [List.find?, h1, h2, h3, h3p, h4, h5, h6, h7, h8]
                · by_cases h9 : containsAny (norm m)
                      [str "inspiration4", str "axiom", str "ax-", str "spacex"]
                  · simp [List.find?, h1, h2, h3, h3p, h4, h5, h6, h7, h8, h9]
                  · simp [List.find?, h1, h2, h3, h3p, h4, h5, h6, h7, h8, h9]

/-- C3: the mission classifier is the first-match rule table of the spec
(section 4.4) and the composite observation RR-5, Expedition 45 splits
into two trimmed pieces routed to Rodent Research and ISS Expeditions. -/
theorem C3_mission_classification :
    (∀ m : Str, classifyBySpecRules m = categorizeMission m) ∧
    (splitOnChar 44 (str "RR-5, Expedition 45")).map strip =
      [str "RR-5", str "Expedition 45"] ∧
    categorizeMission (str "RR-5") = str "Rodent Research" ∧
    categorizeMission (str "Expedition 45") = str "ISS Expeditions" ∧
    getCat ((reconcileMissionRow 1 (initState emptyIndex)
      [str "OSD-1", str "RR-5, Expedition 45"]).new_json .mission) (str "Rodent Research") =
      [str "RR-5"] ∧
    getCat ((reconcileMissionRow 1 (initState emptyIndex)
      [str "OSD-1", str "RR-5, Expedition 45"]).new_json .mission) (str "ISS Expeditions") =
      [str "Expedition 45"] :=
  ⟨classifyBySpecRules_eq, by decide, by decide, by decide, by decide, by decide⟩

/-- The grouping-recognition rules of the spec, section 4.2 step 1, as an
ordered rule table over (display label, marker values). -/
def groupingRuleList : List ((Str → List Str → Bool) × Grouping) :=
  [(fun _ values => decide (str "Project Type" ∈ values), .projectType),
   (fun display values =>
      containsSub display (str "Assay Type") || decide (str "Study Assay Technology Type" ∈ values),
    .assayTech),
   (fun _ values => decide (str "organism" ∈ values), .organism),
   (fun display values =>
      containsSub display (str "Tissue") || decide (str "material type" ∈ values),
    .materialType),
   (fun display values =>
      containsSub display (str "Factor") || decide (str "Study Factor Name" ∈ values),
    .factor)]

/-- First matching recognition rule wins; no match means the entry has no
grouping (the spec-side statement of grouping recognition). -/
def specIdentifyGrouping (display : Str) (values : List Str) : Option Grouping :=
  (groupingRuleList.find? (fun r => r.1 display values)).map Prod.snd

theorem specIdentifyGrouping_eq (display : Str) (values : List Str) :
    specIdentifyGrouping display values = identifyGrouping display values := by
  unfold specIdentifyGrouping groupingRuleList identifyGrouping
  by_cases c1 : str "Project Type" ∈ values
  · simp [List.find?, c1]
  · by_cases c2 : containsSub display (str "Assay Type") = true ∨
        str "Study Assay Technology Type" ∈ values
    · have b2 : (containsSub display (str "Assay Type") ||
          decide (str "Study Assay Technology Type" ∈ values)) = true := by
        rcases c2 with h | h <;> simp [h]
      simp [List.find?, c1, c2, b2]
    · obtain ⟨h2a, h2b⟩ := not_or.mp c2
      have b2 : (containsSub display (str "Assay Type") ||
          decide (str "Study Assay Technology Type" ∈ values)) = false := by
        simp [Bool.eq_false_iff.mpr h2a, decide_eq_false h2b]
      by_cases c3 : str "organism" ∈ values
      · simp [List.find?, c1, c2, b2, c3]
      · by_cases c4 : containsSub display (str "Tissue") = true ∨ str "material type" ∈ values
        · have b4 : (containsSub display (str "Tissue") ||
              decide (str "material type" ∈ values)) = true := by
            rcases c4 with h | h <;> simp [h]
          simp [List.find?, c1, c2, b2, c3, c4, b4]
        · obtain ⟨h4a, h4b⟩ := not_or.mp c4
          have b4 : (containsSub display (str "Tissue") ||
              decide (str "material type" ∈ values)) = false := by
            simp [Bool.eq_false_iff.mpr h4a, decide_eq_false h4b]
          by_cases c5 : containsSub display (str "Factor") = true ∨
              str "Study Factor Name" ∈ values
          · have b5 : (containsSub display (str "Factor") ||
                decide (str "Study Factor Name" ∈ values)) = true := by
              rcases c5 with h | h <;> simp [h]
            simp [List.find?, c1, c2, b2, c3, c4, b4, c5, b5]
          · obtain ⟨h5a, h5b⟩ := not_or.mp c5
            have b5 : (containsSub display (str "Factor") ||
                decide (str "Study Factor Name" ∈ values)) = false := by
              simp [Bool.eq_false_iff.mpr h5a, decide_eq_false h5b]
            simp [List.find?, c1, c2, b2, c3, c4, b4, c5, b5]

/-- C7: every top-level entry's grouping is decided by the first matching
rule in the fixed priority order (Project Type, Assay, Organism,
Material, Factor), and an entry matching no rule is skipped entirely. -/
theorem C7_grouping_recognition :
    (∀ display values, specIdentifyGrouping display values = identifyGrouping display values) ∧
    (∀ (idx : Index) (item : Node),
      identifyGrouping (item.displayValue.getD []) item.values = none →
      processItem idx item = idx) := by
  refine ⟨specIdentifyGrouping_eq, fun idx item h => ?_⟩
  unfold processItem
  rw [h]

theorem C7_grouping_recognition_witness :
    processItem emptyIndex (Node.mk (some (str "Random Section")) [str "unrelated marker"] []) =
      emptyIndex :=
  C7_grouping_recognition.2 emptyIndex
    (Node.mk (some (str "Random Section")) [str "unrelated marker"] []) (by decide)

/-- Containment order on category dictionaries (value sets only grow). -/
def catsSub (cs cs' : Cats) : Prop := ∀ k v, v ∈ getCat cs k → v ∈ getCat cs' k

theorem catsSub_refl (cs : Cats) : catsSub cs cs := fun _ _ h => h

theorem catsSub_trans {a b c : Cats} (h1 : catsSub a b) (h2 : catsSub b c) : catsSub a c :=
  fun k v h => h2 k v (h1 k v h)

theorem catsSub_addVal (cs : Cats) (k v : Str) : catsSub cs (addVal cs k v) :=
  fun k' u h => mem_getCat_addVal_of_mem cs k v k' u h

theorem catsSub_ensureCat (cs : Cats) (k : Str) : catsSub cs (ensureCat cs k) :=
  fun k' _ h => (getCat_ensureCat cs k k').symm ▸ h

theorem catsSub_addValues (k : Str) (vals : List Str) :
    ∀ acc : Cats, catsSub acc (addValues k acc vals) := by
  induction vals with
  | nil => exact fun acc => catsSub_refl acc
  | cons w t ih =>
    intro acc
    rw [addValues, List.foldl_cons]
    by_cases hw : w = []
    · rw [if_pos hw]
      exact ih acc
    · rw [if_neg hw]
      exact catsSub_trans (catsSub_addVal acc k w) (ih (addVal acc k w))

theorem mem_addValues (k v : Str) (vals : List Str) :
    ∀ acc : Cats, v ∈ vals → ¬v = [] →
      v ∈ getCat (addValues k acc vals) k := by
  induction vals with
  | nil =>
    intro acc h
    simp at h
  | cons w t ih =>
    intro acc hmem hv
    rcases List.mem_cons.mp hmem with h | h
    · subst h
      rw [addValues, List.foldl_cons,
        show (if v = [] then acc else addVal acc k v) = addVal acc k v from if_neg hv]
      exact catsSub_addValues k t (addVal acc k v) k v (mem_getCat_addVal_self acc k v)
    · rw [addValues, List.foldl_cons]
      by_cases hw : w = []
      · rw [show (if w = [] then acc else addVal acc k w) = acc from if_pos hw]
        exact ih acc h hv
      · rw [show (if w = [] then acc else addVal acc k w) = addVal acc k w from if_neg hw]
        exact ih (addVal acc k w) h hv

theorem catsSub_processSubchild (category : Str) (acc : Cats) (sub : Node) :
    catsSub acc (processSubchild category acc sub) :=
  catsSub_trans (catsSub_ensureCat acc _) (catsSub_addValues _ sub.values _)

theorem catsSub_subFold (category : Str) (l : List Node) :
    ∀ acc : Cats, catsSub acc (l.foldl (processSubchild category) acc) := by
  induction l with
  | nil => exact fun acc => catsSub_refl acc
  | cons s t ih =>
    intro acc
    rw [List.foldl_cons]
    exact catsSub_trans (catsSub_processSubchild category acc s) (ih _)

theorem mem_subFold (category v : Str) (sub : Node) (l : List Node) :
    ∀ acc : Cats, sub ∈ l → v ∈ sub.values → ¬v = [] →
      v ∈ getCat (l.foldl (processSubchild category) acc)
        (category ++ str "|" ++ rawName sub) := by
  induction l with
  | nil =>
    intro acc h
    simp at h
  | cons s t ih =>
    intro acc hmem hval hv
    rcases List.mem_cons.mp hmem with h | h
    · subst h
      rw [List.foldl_cons]
      refine catsSub_subFold category t _ _ _ ?_
      exact mem_addValues _ v sub.values _ hval hv
    · rw [List.foldl_cons]
      exact ih _ h hval hv

/-- The claim's category-name fallback chain stated literally: the display
label; if that is empty, the child's first raw value; the literal
Uncategorized only when both are empty. -/
def claimCategoryName (child : Node) : Str :=
  let d := child.displayValue.getD []
  if d = [] then
    match child.values with
    | [] => str "Uncategorized"
    | v :: _ => if v = [] then str "Uncategorized" else v
  else d

/-- C6 counterexample: a child whose displayValue key is present but empty
while its first raw value is "X" gets category Uncategorized from the
extractor, not the raw-value fallback "X" that the claim's chain
dictates. -/
theorem C6_counterexample :
    claimCategoryName (Node.mk (some []) [str "X"] []) = str "X" ∧
    categoryName (Node.mk (some []) [str "X"] []) = str "Uncategorized" ∧
    ¬claimCategoryName (Node.mk (some []) [str "X"] []) =
      categoryName (Node.mk (some []) [str "X"] []) ∧
    extractExistingStructure [Node.mk (some (str "orgs")) [str "organism"]
      [Node.mk (some []) [str "X"] []]] .organism = [(str "Uncategorized", [str "X"])] := by
  refine ⟨by decide, by decide, by decide, by decide⟩

/-- C6 amended: the category name is the displayValue whenever that key is
present, with an empty name replaced by Uncategorized (so a present-but-
empty label never falls back to the raw values); only an absent
displayValue key falls back to the first raw value; the subcategory name
is derived by the same label-then-value fallback but without the
Uncategorized replacement, and the grandchild's values are recorded under
the compound pipe-joined key. -/
theorem C6_category_name_derivation :
    (∀ d vs ch, ¬d = [] → categoryName (Node.mk (some d) vs ch) = d) ∧
    (∀ vs ch, categoryName (Node.mk (some []) vs ch) = str "Uncategorized") ∧
    (∀ v rest ch, ¬v = [] → categoryName (Node.mk none (v :: rest) ch) = v) ∧
    (∀ rest ch, categoryName (Node.mk none ([] :: rest) ch) = str "Uncategorized") ∧
    (∀ ch, categoryName (Node.mk none [] ch) = str "Uncategorized") ∧
    (∀ (cs : Cats) (child sub : Node), sub ∈ child.children → ∀ v ∈ sub.values, ¬v = [] →
      v ∈ getCat (processChild cs child) (categoryName child ++ str "|" ++ rawName sub)) ∧
    extractExistingStructure [Node.mk (some (str "o")) [str "organism"]
      [Node.mk (some (str "Cat")) [] [Node.mk (some (str "Sub")) [str "V"] []]]] .organism =
      [(str "Cat", []), (str "Cat|Sub", [str "V"])] := by
  refine ⟨?_, ?_, ?_, ?_, ?_, ?_, by decide⟩
  · intro d vs ch hd
    simp [categoryName, rawName, Node.displayValue, hd]
  · intro vs ch
    rfl
  · intro v rest ch hv
    simp [categoryName, rawName, Node.displayValue, Node.values, hv]
  · intro rest ch
    simp [categoryName, rawName, Node.displayValue, Node.values]
  · intro ch
    simp [categoryName, rawName, Node.displayValue, Node.values]
  · intro cs child sub hsub v hval hv
    unfold processChild
    exact mem_subFold (categoryName child) v sub child.children _ hsub hval hv

theorem C6_category_name_derivation_witness :
    categoryName (Node.mk (some (str "Rodents")) [] []) = str "Rodents" ∧
    str "V" ∈ getCat (processChild []
        (Node.mk (some (str "Cat")) [] [Node.mk (some (str "Sub")) [str "V"] []]))
      (categoryName (Node.mk (some (str "Cat")) [] [Node.mk (some (str "Sub")) [str "V"] []]) ++
        str "|" ++ rawName (Node.mk (some (str "Sub")) [str "V"] [])) :=
  ⟨C6_category_name_derivation.1 (str "Rodents") [] [] (by decide),
   C6_category_name_derivation.2.2.2.2.2.1 []
     (Node.mk (some (str "Cat")) [] [Node.mk (some (str "Sub")) [str "V"] []])
     (Node.mk (some (str "Sub")) [str "V"] [])
     (List.mem_singleton.mpr rfl) (str "V") (by decide) (by decide)⟩

theorem mem_getCat_of_pairs (cs : Cats) (hnd : (cs.map Prod.fst).Nodup)
    (p : Str × List Str) (hp : p ∈ cs) (v : Str) (hv : v ∈ p.2) : v ∈ getCat cs p.1 := by
  induction cs with
  | nil => simp at hp
  | cons a rest ih =>
    rcases List.mem_cons.mp hp with h | h
    · subst h
      simp [getCat, hv]
    · have hne : ¬a.1 = p.1 := by
        intro he
        have : p.1 ∈ rest.map Prod.fst := List.mem_map_of_mem Prod.fst h
        rw [← he] at this
        exact (List.nodup_cons.mp (by simpa using hnd)).1 this
      obtain ⟨a1, a2⟩ := a
      simp only [getCat, if_neg hne]
      exact ih (List.nodup_cons.mp (by simpa using hnd)).2 h

theorem pairs_of_mem_getCat (cs : Cats) (k v : Str) (h : v ∈ getCat cs k) :
    ∃ p ∈ cs, p.1 = k ∧ v ∈ p.2 := by
  induction cs with
  | nil => simp [getCat] at h
  | cons a rest ih =>
    obtain ⟨a1, a2⟩ := a
    by_cases he : a1 = k
    · subst he
      rw [getCat, if_pos rfl] at h
      exact ⟨(a1, a2), List.mem_cons_self _ _, rfl, h⟩
    · rw [getCat, if_neg he] at h
      obtain ⟨p, hp, hk, hv⟩ := ih h
      exact ⟨p, List.mem_cons_of_mem _ hp, hk, hv⟩

theorem mem_normsOf_inner {x : Str} {cs : Cats} :
    ∀ {acc : List Str},
      x ∈ cs.foldr (fun p a => p.2.map norm ++ a) acc ↔
        (∃ p ∈ cs, ∃ v ∈ p.2, x = norm v) ∨ x ∈ acc := by
  induction cs with
  | nil => simp
  | cons a rest ih =>
    intro acc
    simp only [List.foldr_cons, List.mem_append, List.mem_map, ih, List.mem_cons]
    constructor
    · rintro (⟨v, hv, rfl⟩ | ⟨p, hp, v, hv, rfl⟩ | hx)
      · exact Or.inl ⟨a, Or.inl rfl, v, hv, rfl⟩
      · exact Or.inl ⟨p, Or.inr hp, v, hv, rfl⟩
      · exact Or.inr hx
    · rintro (⟨p, hp | hp, v, hv, rfl⟩ | hx)
      · exact Or.inl ⟨v, hp ▸ hv, rfl⟩
      · exact Or.inr (Or.inl ⟨p, hp, v, hv, rfl⟩)
      · exact Or.inr (Or.inr hx)

theorem mem_normsOf {idx : Index} {gs : List Grouping} {x : Str} :
    x ∈ normsOf idx gs ↔ ∃ g ∈ gs, ∃ p ∈ idx g, ∃ v ∈ p.2, x = norm v := by
  induction gs with
  | nil => simp [normsOf]
  | cons g rest ih =>
    rw [normsOf, List.foldr_cons]
    rw [normsOf] at ih
    rw [mem_normsOf_inner]
    simp only [List.mem_cons, ih]
    constructor
    · rintro (⟨p, hp, v, hv, rfl⟩ | ⟨g', hg, p, hp, v, hv, rfl⟩)
      · exact ⟨g, Or.inl rfl, p, hp, v, hv, rfl⟩
      · exact ⟨g', Or.inr hg, p, hp, v, hv, rfl⟩
    · rintro ⟨g', hg | hg, p, hp, v, hv, rfl⟩
      · exact Or.inl ⟨p, hg ▸ hp, v, hv, rfl⟩
      · exact Or.inr ⟨g', hg, p, hp, v, hv, rfl⟩

/-- C1: after the full reconciliation pass from the snapshot-initialized
state, every value of the five original groupings is still present (under
normalization, in its own grouping and category) in the output index, and
verify_completeness reports an empty missing set, so the run is judged
successful.  The hypothesis on existing is the key-uniqueness invariant
of the Python dicts the index models. -/
theorem C1_completeness_invariant (existing : Index) (feeds : Feeds) (st' : GenState)
    (hkeys : ∀ g, ((existing g).map Prod.fst).Nodup)
    (h : processApiData existing feeds (initState existing) = some st') :
    (∀ g ∈ fiveGroupings, ∀ p ∈ existing g, ∀ v ∈ p.2,
      ∃ v', v' ∈ getCat (st'.new_json g) p.1 ∧ norm v' = norm v) ∧
    verifyCompleteness existing st'.new_json = true := by
  have hmono := (grows_processApiData h).1
  have hinit : ∀ g ∈ fiveGroupings, initializeFromExisting existing g = existing g := by
    intro g hg
    fin_cases hg <;> rfl
  have hpres : ∀ g ∈ fiveGroupings, ∀ p ∈ existing g, ∀ v ∈ p.2,
      v ∈ getCat (st'.new_json g) p.1 := by
    intro g hg p hp v hv
    have h1 : v ∈ getCat (existing g) p.1 := mem_getCat_of_pairs _ (hkeys g) p hp v hv
    have h2 : v ∈ getCat ((initState existing).new_json g) p.1 := by
      show v ∈ getCat (initializeFromExisting existing g) p.1
      rw [hinit g hg]
      exact h1
    exact hmono g p.1 v h2
  refine ⟨fun g hg p hp v hv => ⟨v, hpres g hg p hp v hv, rfl⟩, ?_⟩
  rw [verifyCompleteness, List.all_eq_true]
  intro x hx
  rw [decide_eq_true_eq]
  obtain ⟨g, hg, p, hp, v, hv, rfl⟩ := mem_normsOf.mp hx
  obtain ⟨q, hq, hqk, hqv⟩ := pairs_of_mem_getCat _ _ _ (hpres g hg p hp v hv)
  exact mem_normsOf.mpr ⟨g, hg, q, hq, v, hqv, rfl⟩

theorem ids_reconcileFactor (existing : Index) (st : GenState) (fn : Str) :
    (reconcileFactor existing st fn).all_osd_ids = st.all_osd_ids := by
  unfold reconcileFactor
  split <;> split <;> rfl

theorem ids_factorFold (existing : Index) :
    ∀ (l : List Str) (st : GenState),
      (l.foldl (reconcileFactor existing) st).all_osd_ids = st.all_osd_ids
  | [], _ => rfl
  | fn :: t, st => by
    rw [List.foldl_cons, ids_factorFold existing t (reconcileFactor existing st fn),
      ids_reconcileFactor]

theorem ids_processFactors (existing : Index) (feed : Feed) (st : GenState) :
    (processFactors existing feed st).all_osd_ids = st.all_osd_ids :=
  ids_factorFold existing (factorNames feed) st

theorem unmapped_foldl {α : Type} (P : Grouping × Str × Str → Prop) (f : GenState → α → GenState)
    (hf : ∀ s x, ∀ r ∈ (f s x).unmapped, r ∈ s.unmapped ∨ P r) :
    ∀ (l : List α) (st : GenState), ∀ r ∈ (l.foldl f st).unmapped, r ∈ st.unmapped ∨ P r
  | [], _ => fun _ hr => Or.inl hr
  | x :: t, st => fun r hr => by
    rcases unmapped_foldl P f hf t (f st x) r hr with h | h
    · exact hf st x r h
    · exact Or.inr h

theorem unmapped_reconcileRow (existing : Index) (g : Grouping) (fb : Str) (colIdx : Nat)
    (st : GenState) (row : List Str) :
    ∀ r ∈ (reconcileRow existing g fb colIdx st row).unmapped,
      r ∈ st.unmapped ∨ r.1 = g := by
  unfold reconcileRow
  dsimp only
  split
  · exact fun _ hr => Or.inl hr
  · split
    · split
      · exact fun _ hr => Or.inl hr
      · exact fun _ hr => Or.inl hr
    · split
      · exact fun _ hr => Or.inl hr
      · intro r hr
        rcases List.mem_append.mp hr with h | h
        · exact Or.inl h
        · rw [List.mem_singleton] at h
          exact Or.inr (by rw [h])

theorem unmapped_reconcileFactor (existing : Index) (st : GenState) (fn : Str) :
    ∀ r ∈ (reconcileFactor existing st fn).unmapped,
      r ∈ st.unmapped ∨ (r.1 = .factor ∧ r.2.2 = str "schema") := by
  unfold reconcileFactor
  split
  · split
    · exact fun _ hr => Or.inl hr
    · exact fun _ hr => Or.inl hr
  · split
    · exact fun _ hr => Or.inl hr
    · intro r hr
      rcases List.mem_append.mp hr with h | h
      · exact Or.inl h
      · rw [List.mem_singleton] at h
        exact Or.inr (by rw [h]; exact ⟨rfl, rfl⟩)

theorem unmapped_reconcileMissionPiece (osdId : Str) (st : GenState) (m : Str) :
    ∀ r ∈ (reconcileMissionPiece osdId st m).unmapped,
      r ∈ st.unmapped ∨ r.1 = .mission := by
  unfold reconcileMissionPiece
  dsimp only
  split
  · exact fun _ hr => Or.inl hr
  · split
    · exact fun _ hr => Or.inl hr
    · split
      · intro r hr
        rcases List.mem_append.mp hr with h | h
        · exact Or.inl h
        · rw [List.mem_singleton] at h
          exact Or.inr (by rw [h])
      · exact fun _ hr => Or.inl hr

theorem unmapped_reconcileMissionRow (colIdx : Nat) (st : GenState) (row : List Str) :
    ∀ r ∈ (reconcileMissionRow colIdx st row).unmapped,
      r ∈ st.unmapped ∨ r.1 = .mission := by
  unfold reconcileMissionRow
  dsimp only
  split
  · exact fun _ hr => Or.inl hr
  · exact unmapped_foldl _ _ (fun s x => unmapped_reconcileMissionPiece _ s x) _ _

theorem unmapped_processAssays {existing : Index} {feed : Feed} {st st' : GenState}
    (h : processAssays existing feed st = some st') :
    ∀ r ∈ st'.unmapped, r ∈ st.unmapped ∨ r.1 = .assayTech := by
  obtain ⟨ci, -, hfold⟩ := Option.map_eq_some'.mp h
  exact hfold ▸ unmapped_foldl _ _ (fun s x => unmapped_reconcileRow existing _ _ ci s x) feed.data st

theorem unmapped_processOrganisms {existing : Index} {feed : Feed} {st st' : GenState}
    (h : processOrganisms existing feed st = some st') :
    ∀ r ∈ st'.unmapped, r ∈ st.unmapped ∨ r.1 = .organism := by
  obtain ⟨ci, -, hfold⟩ := Option.map_eq_some'.mp h
  exact hfold ▸ unmapped_foldl _ _ (fun s x => unmapped_reconcileRow existing _ _ ci s x) feed.data st

theorem unmapped_processMaterials {existing : Index} {feed : Feed} {st st' : GenState}
    (h : processMaterials existing feed st = some st') :
    ∀ r ∈ st'.unmapped, r ∈ st.unmapped ∨ r.1 = .materialType := by
  obtain ⟨ci, -, hfold⟩ := Option.map_eq_some'.mp h
  exact hfold ▸ unmapped_foldl _ _ (fun s x => unmapped_reconcileRow existing _ _ ci s x) feed.data st

theorem unmapped_processFactors (existing : Index) (feed : Feed) (st : GenState) :
    ∀ r ∈ (processFactors existing feed st).unmapped,
      r ∈ st.unmapped ∨ (r.1 = .factor ∧ r.2.2 = str "schema") :=
  unmapped_foldl _ _ (fun s x => unmapped_reconcileFactor existing s x) (factorNames feed) st

theorem unmapped_processMissions {feed : Feed} {st st' : GenState}
    (h : processMissions feed st = some st') :
    ∀ r ∈ st'.unmapped, r ∈ st.unmapped ∨ r.1 = .mission := by
  obtain ⟨ci, -, hfold⟩ := Option.map_eq_some'.mp h
  exact hfold ▸ unmapped_foldl _ _ (fun s x => unmapped_reconcileMissionRow ci s x) feed.data st

theorem ids_reconcileRow_nonempty (existing : Index) (g : Grouping) (fb : Str) (colIdx : Nat)
    (st : GenState) (row : List Str) (hv : ¬rowGet row colIdx = []) :
    (reconcileRow existing g fb colIdx st row).all_osd_ids =
      addId st.all_osd_ids (rowGet row 0) := by
  unfold reconcileRow
  dsimp only
  rw [if_neg hv]
  split <;> split <;> rfl

theorem ids_mem_rowFold (existing : Index) (g : Grouping) (fb : Str) (colIdx : Nat) :
    ∀ (rows : List (List Str)) (st : GenState), ∀ row ∈ rows, ¬rowGet row colIdx = [] →
      rowGet row 0 ∈ (rows.foldl (reconcileRow existing g fb colIdx) st).all_osd_ids
  | [], _ => by
    intro row h
    simp at h
  | r0 :: t, st => by
    intro row hmem hv
    rcases List.mem_cons.mp hmem with h | h
    · subst h
      rw [List.foldl_cons]
      refine (grows_foldl _ (fun s x => grows_reconcileRow existing g fb colIdx s x) t _).2.1 _ ?_
      rw [ids_reconcileRow_nonempty existing g fb colIdx st row hv]
      exact self_mem_addId _ _
    · rw [List.foldl_cons]
      exact ids_mem_rowFold existing g fb colIdx t _ row h hv

theorem ids_mem_reconcileMissionRow (colIdx : Nat) (st : GenState) (row : List Str)
    (hv : ¬rowGet row colIdx = []) :
    rowGet row 0 ∈ (reconcileMissionRow colIdx st row).all_osd_ids := by
  unfold reconcileMissionRow
  dsimp only
  rw [if_neg hv]
  exact (grows_foldl _ (fun s x => grows_reconcileMissionPiece _ s x) _ _).2.1 _
    (self_mem_addId _ _)

theorem ids_mem_missionFold (colIdx : Nat) :
    ∀ (rows : List (List Str)) (st : GenState), ∀ row ∈ rows, ¬rowGet row colIdx = [] →
      rowGet row 0 ∈ (rows.foldl (reconcileMissionRow colIdx) st).all_osd_ids
  | [], _ => by
    intro row h
    simp at h
  | r0 :: t, st => by
    intro row hmem hv
    rcases List.mem_cons.mp hmem with h | h
    · subst h
      rw [List.foldl_cons]
      exact (grows_foldl _ (fun s x => grows_reconcileMissionRow colIdx s x) t _).2.1 _
        (ids_mem_reconcileMissionRow colIdx st row hv)
    · rw [List.foldl_cons]
      exact ids_mem_missionFold colIdx t _ row h hv

/-- C10: factor observations come from column names only, so every
Unmapped Record of the Factor grouping carries the literal schema
identifier, and the factor pass never adds to the covered-identifier set;
the row feeds and the mission feed instead record row 0 of every row
whose relevant value is non-empty. -/
theorem C10_factor_schema_identifier (existing : Index) (feeds : Feeds) (st' : GenState)
    (h : processApiData existing feeds (initState existing) = some st') :
    (∀ r ∈ st'.unmapped, r.1 = .factor → r.2.2 = str "schema") ∧
    (∀ (feed : Feed) (st : GenState),
      (processFactors existing feed st).all_osd_ids = st.all_osd_ids) ∧
    (∀ (g : Grouping) (fb : Str) (colIdx : Nat) (rows : List (List Str)) (st : GenState),
      ∀ row ∈ rows, ¬rowGet row colIdx = [] →
        rowGet row 0 ∈ (rows.foldl (reconcileRow existing g fb colIdx) st).all_osd_ids) ∧
    (∀ (colIdx : Nat) (rows : List (List Str)) (st : GenState),
      ∀ row ∈ rows, ¬rowGet row colIdx = [] →
        rowGet row 0 ∈ (rows.foldl (reconcileMissionRow colIdx) st).all_osd_ids) := by
  refine ⟨?_, fun feed st => ids_processFactors existing feed st,
    fun g fb ci rows st row hm hv => ids_mem_rowFold existing g fb ci rows st row hm hv,
    fun ci rows st row hm hv => ids_mem_missionFold ci rows st row hm hv⟩
  unfold processApiData at h
  obtain ⟨s1, h1, h⟩ := Option.bind_eq_some.mp h
  obtain ⟨s3, h3, h⟩ := Option.bind_eq_some.mp h
  obtain ⟨s4, h4, h5⟩ := Option.bind_eq_some.mp h
  intro r hr hrf
  rcases unmapped_processMissions h5 r hr with hr | hg
  · rcases unmapped_processMaterials h4 r hr with hr | hg
    · rcases unmapped_processOrganisms h3 r hr with hr | hg
      · rcases unmapped_processFactors existing feeds.factor s1 r hr with hr | hg
        · rcases unmapped_processAssays h1 r hr with hr | hg
          · simp [initState] at hr
          · exact absurd (hg.symm.trans hrf) (by decide)
        · exact hg.2
      · exact absurd (hg.symm.trans hrf) (by decide)
    · exact absurd (hg.symm.trans hrf) (by decide)
  · exact absurd (hg.symm.trans hrf) (by decide)

/-- The category an observed value is routed to: the matched snapshot
category if any, else the grouping's fallback category. -/
def targetCat (existing : Index) (g : Grouping) (fb v : Str) : Str :=
  (findCategoryForValue existing v g).getD fb

/-- Every relevant value of a row feed is already present at its routed
category of the state's output index. -/
def rowFeedSettled (existing : Index) (g : Grouping) (fb : Str) (rows : List (List Str))
    (colIdx : Nat) (st : GenState) : Prop :=
  ∀ row ∈ rows, ¬rowGet row colIdx = [] →
    rowGet row colIdx ∈ getCat (st.new_json g) (targetCat existing g fb (rowGet row colIdx))

def factorSettled (existing : Index) (feed : Feed) (st : GenState) : Prop :=
  ∀ fn ∈ factorNames feed,
    fn ∈ getCat (st.new_json .factor) (targetCat existing .factor (str "other") fn)

def missionSettled (rows : List (List Str)) (colIdx : Nat) (st : GenState) : Prop :=
  ∀ row ∈ rows, ∀ m ∈ (splitOnChar 44 (rowGet row colIdx)).map strip, ¬m = [] →
    m ∈ getCat (st.new_json .mission) (categorizeMission m)

theorem rowFeedSettled_mono {existing : Index} {g : Grouping} {fb : Str}
    {rows : List (List Str)} {colIdx : Nat} {st st' : GenState} (hg : grows st st')
    (hs : rowFeedSettled existing g fb rows colIdx st) :
    rowFeedSettled existing g fb rows colIdx st' :=
  fun row hr hv => hg.1 _ _ _ (hs row hr hv)

theorem factorSettled_mono {existing : Index} {feed : Feed} {st st' : GenState}
    (hg : grows st st') (hs : factorSettled existing feed st) :
    factorSettled existing feed st' :=
  fun fn hf => hg.1 _ _ _ (hs fn hf)

theorem missionSettled_mono {rows : List (List Str)} {colIdx : Nat} {st st' : GenState}
    (hg : grows st st') (hs : missionSettled rows colIdx st) :
    missionSettled rows colIdx st' :=
  fun row hr m hm hne => hg.1 _ _ _ (hs row hr m hm hne)

theorem reconcileRow_settles (existing : Index) (g : Grouping) (fb : Str) (colIdx : Nat)
    (st : GenState) (row : List Str) (hv : ¬rowGet row colIdx = []) :
    rowGet row colIdx ∈ getCat ((reconcileRow existing g fb colIdx st row).new_json g)
      (targetCat existing g fb (rowGet row colIdx)) := by
  unfold reconcileRow targetCat
  dsimp only
  rw [if_neg hv]
  cases hf : findCategoryForValue existing (rowGet row colIdx) g with
  | some cat =>
    dsimp only [Option.getD]
    split
    · next hmem => exact hmem
    · show _ ∈ getCat (updateIdx st.new_json g (addVal (st.new_json g) cat _) g) cat
      rw [getCat_updateIdx, if_pos rfl]
      exact mem_getCat_addVal_self _ _ _
  | none =>
    dsimp only [Option.getD]
    split
    · next hmem => exact hmem
    · show _ ∈ getCat (updateIdx st.new_json g (addVal (st.new_json g) fb _) g) fb
      rw [getCat_updateIdx, if_pos rfl]
      exact mem_getCat_addVal_self _ _ _

theorem rowFold_settled (existing : Index) (g : Grouping) (fb : Str) (colIdx : Nat) :
    ∀ (rows : List (List Str)) (st : GenState),
      rowFeedSettled existing g fb rows colIdx
        (rows.foldl (reconcileRow existing g fb colIdx) st)
  | [], _ => fun row hr => by simp at hr
  | r0 :: t, st => by
    intro row hmem hv
    rcases List.mem_cons.mp hmem with h | h
    · subst h
      rw [List.foldl_cons]
      exact (grows_foldl _ (fun s x => grows_reconcileRow existing g fb colIdx s x) t _).1 _ _ _
        (reconcileRow_settles existing g fb colIdx st row hv)
    · rw [List.foldl_cons]
      exact rowFold_settled existing g fb colIdx t _ row h hv

theorem reconcileFactor_settles (existing : Index) (st : GenState) (fn : Str) :
    fn ∈ getCat ((reconcileFactor existing st fn).new_json .factor)
      (targetCat existing .factor (str "other") fn) := by
  unfold reconcileFactor targetCat
  cases hf : findCategoryForValue existing fn .factor with
  | some cat =>
    dsimp only [Option.getD]
    split
    · next hmem => exact hmem
    · show _ ∈ getCat (updateIdx st.new_json .factor (addVal (st.new_json .factor) cat _) .factor) cat
      rw [getCat_updateIdx, if_pos rfl]
      exact mem_getCat_addVal_self _ _ _
  | none =>
    dsimp only [Option.getD]
    split
    · next hmem => exact hmem
    · show _ ∈ getCat (updateIdx st.new_json .factor
        (addVal (st.new_json .factor) (str "other") _) .factor) (str "other")
      rw [getCat_updateIdx, if_pos rfl]
      exact mem_getCat_addVal_self _ _ _

theorem factorFold_settled (existing : Index) :
    ∀ (l : List Str) (st : GenState), ∀ fn ∈ l,
      fn ∈ getCat ((l.foldl (reconcileFactor existing) st).new_json .factor)
        (targetCat existing .factor (str "other") fn)
  | [], _ => fun fn hf => by simp at hf
  | f0 :: t, st => by
    intro fn hmem
    rcases List.mem_cons.mp hmem with h | h
    · subst h
      rw [List.foldl_cons]
      exact (grows_foldl _ (fun s x => grows_reconcileFactor existing s x) t _).1 _ _ _
        (reconcileFactor_settles existing st fn)
    · rw [List.foldl_cons]
      exact factorFold_settled existing t _ fn h

theorem reconcileMissionPiece_settles (osdId : Str) (st : GenState) (m : Str)
    (hm : ¬m = []) :
    m ∈ getCat ((reconcileMissionPiece osdId st m).new_json .mission) (categorizeMission m) := by
  unfold reconcileMissionPiece
  dsimp only
  rw [if_neg hm]
  split
  · next hmem => exact hmem
  · split
    · show _ ∈ getCat (updateIdx st.new_json .mission
        (addVal (st.new_json .mission) (categorizeMission m) m) .mission) (categorizeMission m)
      rw [getCat_updateIdx, if_pos rfl]
      exact mem_getCat_addVal_self _ _ _
    · show _ ∈ getCat (updateIdx st.new_json .mission
        (addVal (st.new_json .mission) (categorizeMission m) m) .mission) (categorizeMission m)
      rw [getCat_updateIdx, if_pos rfl]
      exact mem_getCat_addVal_self _ _ _

theorem missionPieces_settled (osdId : Str) :
    ∀ (l : List Str) (st : GenState), ∀ m ∈ l, ¬m = [] →
      m ∈ getCat ((l.foldl (reconcileMissionPiece osdId) st).new_json .mission)
        (categorizeMission m)
  | [], _ => fun m hm => by simp at hm
  | m0 :: t, st => by
    intro m hmem hne
    rcases List.mem_cons.mp hmem with h | h
    · subst h
      rw [List.foldl_cons]
      exact (grows_foldl _ (fun s x => grows_reconcileMissionPiece osdId s x) t _).1 _ _ _
        (reconcileMissionPiece_settles osdId st m hne)
    · rw [List.foldl_cons]
      exact missionPieces_settled osdId t _ m h hne

theorem reconcileMissionRow_settles (colIdx : Nat) (st : GenState) (row : List Str) :
    ∀ m ∈ (splitOnChar 44 (rowGet row colIdx)).map strip, ¬m = [] →
      m ∈ getCat ((reconcileMissionRow colIdx st row).new_json .mission)
        (categorizeMission m) := by
  unfold reconcileMissionRow
  dsimp only
  by_cases hv : rowGet row colIdx = []
  · rw [if_pos hv]
    intro m hm hne
    rw [hv] at hm
    simp [splitOnChar, strip, stripLeft, stripRight] at hm
    exact absurd hm hne
  · rw [if_neg hv]
    intro m hm hne
    exact missionPieces_settled _ _ _ m hm hne

theorem missionFold_settled (colIdx : Nat) :
    ∀ (rows : List (List Str)) (st : GenState),
      missionSettled rows colIdx (rows.foldl (reconcileMissionRow colIdx) st)
  | [], _ => fun row hr => by simp at hr
  | r0 :: t, st => by
    intro row hmem m hm hne
    rcases List.mem_cons.mp hmem with h | h
    · subst h
      rw [List.foldl_cons]
      exact (grows_foldl _ (fun s x => grows_reconcileMissionRow colIdx s x) t _).1 _ _ _
        (reconcileMissionRow_settles colIdx st row m hm hne)
    · rw [List.foldl_cons]
      exact missionFold_settled colIdx t _ row h m hm hne

theorem reconcileRow_skip (existing : Index) (g : Grouping) (fb : Str) (colIdx : Nat)
    (st : GenState) (row : List Str)
    (hs : ¬rowGet row colIdx = [] →
      rowGet row colIdx ∈ getCat (st.new_json g) (targetCat existing g fb (rowGet row colIdx))) :
    (reconcileRow existing g fb colIdx st row).new_json = st.new_json ∧
    (reconcileRow existing g fb colIdx st row).additions = st.additions ∧
    (reconcileRow existing g fb colIdx st row).unmapped = st.unmapped := by
  unfold reconcileRow
  dsimp only
  by_cases hv : rowGet row colIdx = []
  · rw [if_pos hv]
    exact ⟨rfl, rfl, rfl⟩
  · rw [if_neg hv]
    have hmem := hs hv
    unfold targetCat at hmem
    cases hf : findCategoryForValue existing (rowGet row colIdx) g with
    | some cat =>
      rw [hf] at hmem
      dsimp only [Option.getD] at hmem
      dsimp only
      rw [if_pos hmem]
      exact ⟨rfl, rfl, rfl⟩
    | none =>
      rw [hf] at hmem
      dsimp only [Option.getD] at hmem
      dsimp only
      rw [if_pos hmem]
      exact ⟨rfl, rfl, rfl⟩

theorem rowFold_skip (existing : Index) (g : Grouping) (fb : Str) (colIdx : Nat) :
    ∀ (rows : List (List Str)) (st : GenState),
      rowFeedSettled existing g fb rows colIdx st →
      (rows.foldl (reconcileRow existing g fb colIdx) st).new_json = st.new_json ∧
      (rows.foldl (reconcileRow existing g fb colIdx) st).additions = st.additions ∧
      (rows.foldl (reconcileRow existing g fb colIdx) st).unmapped = st.unmapped
  | [], _ => fun _ => ⟨rfl, rfl, rfl⟩
  | r0 :: t, st => fun hs => by
    rw [List.foldl_cons]
    have hskip := reconcileRow_skip existing g fb colIdx st r0
      (fun hv => hs r0 (List.mem_cons_self _ _) hv)
    have hset : rowFeedSettled existing g fb t colIdx
        (reconcileRow existing g fb colIdx st r0) := by
      intro row hr hv
      rw [hskip.1]
      exact hs row (List.mem_cons_of_mem _ hr) hv
    obtain ⟨h1, h2, h3⟩ := rowFold_skip existing g fb colIdx t _ hset
    exact ⟨h1.trans hskip.1, h2.trans hskip.2.1, h3.trans hskip.2.2⟩

theorem reconcileFactor_skip (existing : Index) (st : GenState) (fn : Str)
    (hs : fn ∈ getCat (st.new_json .factor) (targetCat existing .factor (str "other") fn)) :
    reconcileFactor existing st fn = st := by
  unfold reconcileFactor
  unfold targetCat at hs
  cases hf : findCategoryForValue existing fn .factor with
  | some cat =>
    rw [hf] at hs
    dsimp only [Option.getD] at hs
    dsimp only
    rw [if_pos hs]
  | none =>
    rw [hf] at hs
    dsimp only [Option.getD] at hs
    dsimp only
    rw [if_pos hs]

theorem factorFold_skip (existing : Index) :
    ∀ (l : List Str) (st : GenState),
      (∀ fn ∈ l, fn ∈ getCat (st.new_json .factor) (targetCat existing .factor (str "other") fn)) →
      l.foldl (reconcileFactor existing) st = st
  | [], _ => fun _ => rfl
  | f0 :: t, st => fun hs => by
    rw [List.foldl_cons, reconcileFactor_skip existing st f0 (hs f0 (List.mem_cons_self _ _))]
    exact factorFold_skip existing t st (fun fn hf => hs fn (List.mem_cons_of_mem _ hf))

theorem reconcileMissionPiece_skip (osdId : Str) (st : GenState) (m : Str)
    (hs : ¬m = [] → m ∈ getCat (st.new_json .mission) (categorizeMission m)) :
    reconcileMissionPiece osdId st m = st := by
  unfold reconcileMissionPiece
  dsimp only
  by_cases hm : m = []
  · rw [if_pos hm]
  · rw [if_neg hm, if_pos (hs hm)]

theorem missionPieces_skip (osdId : Str) :
    ∀ (l : List Str) (st : GenState),
      (∀ m ∈ l, ¬m = [] → m ∈ getCat (st.new_json .mission) (categorizeMission m)) →
      l.foldl (reconcileMissionPiece osdId) st = st
  | [], _ => fun _ => rfl
  | m0 :: t, st => fun hs => by
    rw [List.foldl_cons, reconcileMissionPiece_skip osdId st m0 (hs m0 (List.mem_cons_self _ _))]
    exact missionPieces_skip osdId t st (fun m hm hne => hs m (List.mem_cons_of_mem _ hm) hne)

theorem reconcileMissionRow_skip (colIdx : Nat) (st : GenState) (row : List Str)
    (hs : ∀ m ∈ (splitOnChar 44 (rowGet row colIdx)).map strip, ¬m = [] →
      m ∈ getCat (st.new_json .mission) (categorizeMission m)) :
    (reconcileMissionRow colIdx st row).new_json = st.new_json ∧
    (reconcileMissionRow colIdx st row).additions = st.additions ∧
    (reconcileMissionRow colIdx st row).unmapped = st.unmapped := by
  unfold reconcileMissionRow
  dsimp only
  by_cases hv : rowGet row colIdx = []
  · rw [if_pos hv]
    exact ⟨rfl, rfl, rfl⟩
  · rw [if_neg hv]
    have hrec := missionPieces_skip (rowGet row 0)
      ((splitOnChar 44 (rowGet row colIdx)).map strip)
      { st with all_osd_ids := addId st.all_osd_ids (rowGet row 0) }
      (fun m hm hne => hs m hm hne)
    rw [hrec]
    exact ⟨rfl, rfl, rfl⟩

theorem missionFold_skip (colIdx : Nat) :
    ∀ (rows : List (List Str)) (st : GenState),
      missionSettled rows colIdx st →
      (rows.foldl (reconcileMissionRow colIdx) st).new_json = st.new_json ∧
      (rows.foldl (reconcileMissionRow colIdx) st).additions = st.additions ∧
      (rows.foldl (reconcileMissionRow colIdx) st).unmapped = st.unmapped
  | [], _ => fun _ => ⟨rfl, rfl, rfl⟩
  | r0 :: t, st => fun hs => by
    rw [List.foldl_cons]
    have hskip := reconcileMissionRow_skip colIdx st r0
      (fun m hm hne => hs r0 (List.mem_cons_self _ _) m hm hne)
    have hset : missionSettled t colIdx (reconcileMissionRow colIdx st r0) := by
      intro row hr m hm hne
      rw [hskip.1]
      exact hs row (List.mem_cons_of_mem _ hr) m hm hne
    obtain ⟨h1, h2, h3⟩ := missionFold_skip colIdx t _ hset
    exact ⟨h1.trans hskip.1, h2.trans hskip.2.1, h3.trans hskip.2.2⟩

theorem processApiData_destruct {existing : Index} {feeds : Feeds} {st st' : GenState}
    (h : processApiData existing feeds st = some st') :
    ∃ (ia io im ic : Nat) (s1 s3 s4 : GenState),
      feeds.assay.columns.findIdx? (· == assayColName) = some ia ∧
      feeds.assay.data.foldl (reconcileRow existing .assayTech (str "Other Assay Types") ia) st
        = s1 ∧
      feeds.organism.columns.findIdx? (· == organismColName) = some io ∧
      feeds.organism.data.foldl (reconcileRow existing .organism (str "Other Organisms") io)
        (processFactors existing feeds.factor s1) = s3 ∧
      feeds.material.columns.findIdx? (· == materialColName) = some im ∧
      feeds.material.data.foldl (reconcileRow existing .materialType (str "Other Materials") im)
        s3 = s4 ∧
      feeds.mission.columns.findIdx? (· == missionColName) = some ic ∧
      feeds.mission.data.foldl (reconcileMissionRow ic) s4 = st' := by
  unfold processApiData at h
  obtain ⟨s1, ha, h⟩ := Option.bind_eq_some.mp h
  obtain ⟨ia, hia, hfa⟩ := Option.map_eq_some'.mp ha
  dsimp only at h
  obtain ⟨s3, ho, h⟩ := Option.bind_eq_some.mp h
  obtain ⟨io, hio, hfo⟩ := Option.map_eq_some'.mp ho
  obtain ⟨s4, hm, h5⟩ := Option.bind_eq_some.mp h
  obtain ⟨im, him, hfm⟩ := Option.map_eq_some'.mp hm
  obtain ⟨ic, hic, hfc⟩ := Option.map_eq_some'.mp h5
  exact ⟨ia, io, im, ic, s1, s3, s4, hia, hfa, hio, hfo, him, hfm, hic, hfc⟩

/-- C5: reconciliation is idempotent for additions and unmapped records:
a second pass of process_api_data over the same feeds and the same
snapshot index finds every value already raw-present and records
nothing further. -/
theorem C5_reconciliation_idempotent (existing : Index) (feeds : Feeds) (st0 st1 st2 : GenState)
    (h1 : processApiData existing feeds st0 = some st1)
    (h2 : processApiData existing feeds st1 = some st2) :
    st2.additions = st1.additions ∧ st2.unmapped = st1.unmapped ∧
    st2.additions.length = st1.additions.length ∧
    st2.unmapped.length = st1.unmapped.length := by
  obtain ⟨ia, io, im, ic, s1, s3, s4, hia, hfa, hio, hfo, him, hfm, hic, hfc⟩ :=
    processApiData_destruct h1
  have g12 : grows s1 (processFactors existing feeds.factor s1) :=
    grows_processFactors existing feeds.factor s1
  have g23 : grows (processFactors existing feeds.factor s1) s3 :=
    hfo ▸ grows_foldl _ (fun s x => grows_reconcileRow existing .organism _ io s x)
      feeds.organism.data _
  have g34 : grows s3 s4 :=
    hfm ▸ grows_foldl _ (fun s x => grows_reconcileRow existing .materialType _ im s x)
      feeds.material.data s3
  have g45 : grows s4 st1 :=
    hfc ▸ grows_foldl _ (fun s x => grows_reconcileMissionRow ic s x) feeds.mission.data s4
  have hA : rowFeedSettled existing .assayTech (str "Other Assay Types") feeds.assay.data ia st1 :=
    rowFeedSettled_mono (grows_trans g12 (grows_trans g23 (grows_trans g34 g45)))
      (hfa ▸ rowFold_settled existing .assayTech (str "Other Assay Types") ia feeds.assay.data st0)
  have hF : factorSettled existing feeds.factor st1 :=
    factorSettled_mono (grows_trans g23 (grows_trans g34 g45))
      (fun fn hf => factorFold_settled existing (factorNames feeds.factor) s1 fn hf)
  have hO : rowFeedSettled existing .organism (str "Other Organisms") feeds.organism.data io st1 :=
    rowFeedSettled_mono (grows_trans g34 g45)
      (hfo ▸ rowFold_settled existing .organism (str "Other Organisms") io feeds.organism.data _)
  have hM : rowFeedSettled existing .materialType (str "Other Materials") feeds.material.data im
      st1 :=
    rowFeedSettled_mono g45
      (hfm ▸ rowFold_settled existing .materialType (str "Other Materials") im
        feeds.material.data s3)
  have hMi : missionSettled feeds.mission.data ic st1 :=
    hfc ▸ missionFold_settled ic feeds.mission.data s4
  obtain ⟨ia', io', im', ic', t1, t3, t4, hia', hfa', hio', hfo', him', hfm', hic', hfc'⟩ :=
    processApiData_destruct h2
  obtain rfl : ia = ia' := Option.some.inj (hia.symm.trans hia')
  obtain rfl : io = io' := Option.some.inj (hio.symm.trans hio')
  obtain rfl : im = im' := Option.some.inj (him.symm.trans him')
  obtain rfl : ic = ic' := Option.some.inj (hic.symm.trans hic')
  have skipA := rowFold_skip existing .assayTech (str "Other Assay Types") ia
    feeds.assay.data st1 hA
  rw [hfa'] at skipA
  have hFt1 : factorSettled existing feeds.factor t1 := by
    intro fn hf
    rw [skipA.1]
    exact hF fn hf
  have skipF : processFactors existing feeds.factor t1 = t1 :=
    factorFold_skip existing (factorNames feeds.factor) t1 (fun fn hf => hFt1 fn hf)
  have hOt1 : rowFeedSettled existing .organism (str "Other Organisms") feeds.organism.data io
      t1 := by
    intro row hr hv
    rw [skipA.1]
    exact hO row hr hv
  have skipO := rowFold_skip existing .organism (str "Other Organisms") io
    feeds.organism.data (processFactors existing feeds.factor t1)
    (by
      intro row hr hv
      rw [skipF]
      exact hOt1 row hr hv)
  rw [hfo'] at skipO
  rw [skipF] at skipO
  have hMt3 : rowFeedSettled existing .materialType (str "Other Materials") feeds.material.data im
      t3 := by
    intro row hr hv
    rw [skipO.1, skipA.1]
    exact hM row hr hv
  have skipM := rowFold_skip existing .materialType (str "Other Materials") im
    feeds.material.data t3 hMt3
  rw [hfm'] at skipM
  have hMit4 : missionSettled feeds.mission.data ic t4 := by
    intro row hr m hm hne
    rw [skipM.1, skipO.1, skipA.1]
    exact hMi row hr m hm hne
  have skipMi := missionFold_skip ic feeds.mission.data t4 hMit4
  rw [hfc'] at skipMi
  have hadd : st2.additions = st1.additions :=
    (skipMi.2.1.trans skipM.2.1).trans (skipO.2.1.trans skipA.2.1)
  have hunm : st2.unmapped = st1.unmapped :=
    (skipMi.2.2.trans skipM.2.2).trans (skipO.2.2.trans skipA.2.2)
  exact ⟨hadd, hunm, by rw [hadd], by rw [hunm]⟩

/-- Number of Unmapped Records carrying the given grouping and value. -/
def unmappedCountFor (l : List (Grouping × Str × Str)) (g : Grouping) (v : Str) : Nat :=
  l.countP (fun r => decide (r.1 = g ∧ r.2.1 = v))

/-- Number of Addition Records carrying the given grouping and value. -/
def additionsCountFor (l : List (Grouping × Str × Str)) (g : Grouping) (v : Str) : Nat :=
  l.countP (fun r => decide (r.1 = g ∧ r.2.2 = v))

/-- Changes a feed section makes are local to its own grouping: other
groupings' categories are untouched and every appended record is tagged
with the feed's grouping. -/
def feedLocal (gX : Grouping) (s t : GenState) : Prop :=
  (∀ g', ¬g' = gX → t.new_json g' = s.new_json g') ∧
  (∃ d, t.additions = s.additions ++ d ∧ ∀ r ∈ d, r.1 = gX) ∧
  (∃ d, t.unmapped = s.unmapped ++ d ∧ ∀ r ∈ d, r.1 = gX)

theorem feedLocal_refl (gX : Grouping) (s : GenState) : feedLocal gX s s :=
  ⟨fun _ _ => rfl, ⟨[], by simp, by simp⟩, ⟨[], by simp, by simp⟩⟩

theorem feedLocal_trans {gX : Grouping} {s t u : GenState}
    (h1 : feedLocal gX s t) (h2 : feedLocal gX t u) : feedLocal gX s u := by
  obtain ⟨m1, ⟨d1, a1, ta1⟩, ⟨e1, u1, tu1⟩⟩ := h1
  obtain ⟨m2, ⟨d2, a2, ta2⟩, ⟨e2, u2, tu2⟩⟩ := h2
  refine ⟨fun g' h => (m2 g' h).trans (m1 g' h), ⟨d1 ++ d2, ?_, ?_⟩, ⟨e1 ++ e2, ?_, ?_⟩⟩
  · rw [a2, a1, List.append_assoc]
  · intro r hr
    rcases List.mem_append.mp hr with h | h
    · exact ta1 r h
    · exact ta2 r h
  · rw [u2, u1, List.append_assoc]
  · intro r hr
    rcases List.mem_append.mp hr with h | h
    · exact tu1 r h
    · exact tu2 r h

theorem feedLocal_foldl {α : Type} (gX : Grouping) (f : GenState → α → GenState)
    (hf : ∀ s x, feedLocal gX s (f s x)) :
    ∀ (l : List α) (st : GenState), feedLocal gX st (l.foldl f st)
  | [], st => feedLocal_refl gX st
  | x :: t, st => feedLocal_trans (hf st x) (feedLocal_foldl gX f hf t (f st x))

theorem feedLocal_reconcileRow (existing : Index) (g : Grouping) (fb : Str) (colIdx : Nat)
    (st : GenState) (row : List Str) :
    feedLocal g st (reconcileRow existing g fb colIdx st row) := by
  unfold reconcileRow
  dsimp only
  split
  · exact feedLocal_refl g st
  · split
    · split
      · exact ⟨fun _ _ => rfl, ⟨[], by simp, by simp⟩, ⟨[], by simp, by simp⟩⟩
      · refine ⟨fun g' h => ?_, ⟨[_], rfl, by simp⟩, ⟨[], by simp, by simp⟩⟩
        exact if_neg h
    · split
      · exact ⟨fun _ _ => rfl, ⟨[], by simp, by simp⟩, ⟨[], by simp, by simp⟩⟩
      · refine ⟨fun g' h => ?_, ⟨[], by simp, by simp⟩, ⟨[_], rfl, by simp⟩⟩
        exact if_neg h

theorem feedLocal_reconcileFactor (existing : Index) (st : GenState) (fn : Str) :
    feedLocal .factor st (reconcileFactor existing st fn) := by
  unfold reconcileFactor
  split
  · split
    · exact feedLocal_refl _ st
    · refine ⟨fun g' h => ?_, ⟨[_], rfl, by simp⟩, ⟨[], by simp, by simp⟩⟩
      exact if_neg h
  · split
    · exact feedLocal_refl _ st
    · refine ⟨fun g' h => ?_, ⟨[], by simp, by simp⟩, ⟨[_], rfl, by simp⟩⟩
      exact if_neg h

theorem feedLocal_reconcileMissionPiece (osdId : Str) (st : GenState) (m : Str) :
    feedLocal .mission st (reconcileMissionPiece osdId st m) := by
  unfold reconcileMissionPiece
  dsimp only
  split
  · exact feedLocal_refl _ st
  · split
    · exact feedLocal_refl _ st
    · split
      · refine ⟨fun g' h => ?_, ⟨[], by simp, by simp⟩, ⟨[_], rfl, by simp⟩⟩
        exact if_neg h
      · refine ⟨fun g' h => ?_, ⟨[], by simp, by simp⟩, ⟨[], by simp, by simp⟩⟩
        exact if_neg h

theorem feedLocal_reconcileMissionRow (colIdx : Nat) (st : GenState) (row : List Str) :
    feedLocal .mission st (reconcileMissionRow colIdx st row) := by
  unfold reconcileMissionRow
  dsimp only
  split
  · exact feedLocal_refl _ st
  · exact feedLocal_trans
      (⟨fun _ _ => rfl, ⟨[], by simp, by simp⟩, ⟨[], by simp, by simp⟩⟩ :
        feedLocal .mission st { st with all_osd_ids := addId st.all_osd_ids (rowGet row 0) })
      (feedLocal_foldl _ _ (fun s x => feedLocal_reconcileMissionPiece _ s x) _ _)

theorem feedLocal_processAssays {existing : Index} {feed : Feed} {st st' : GenState}
    (h : processAssays existing feed st = some st') : feedLocal .assayTech st st' := by
  obtain ⟨ci, -, hfold⟩ := Option.map_eq_some'.mp h
  exact hfold ▸ feedLocal_foldl _ _ (fun s x => feedLocal_reconcileRow existing _ _ ci s x)
    feed.data st

theorem feedLocal_processOrganisms {existing : Index} {feed : Feed} {st st' : GenState}
    (h : processOrganisms existing feed st = some st') : feedLocal .organism st st' := by
  obtain ⟨ci, -, hfold⟩ := Option.map_eq_some'.mp h
  exact hfold ▸ feedLocal_foldl _ _ (fun s x => feedLocal_reconcileRow existing _ _ ci s x)
    feed.data st

theorem feedLocal_processMaterials {existing : Index} {feed : Feed} {st st' : GenState}
    (h : processMaterials existing feed st = some st') : feedLocal .materialType st st' := by
  obtain ⟨ci, -, hfold⟩ := Option.map_eq_some'.mp h
  exact hfold ▸ feedLocal_foldl _ _ (fun s x => feedLocal_reconcileRow existing _ _ ci s x)
    feed.data st

theorem feedLocal_processFactors (existing : Index) (feed : Feed) (st : GenState) :
    feedLocal .factor st (processFactors existing feed st) :=
  feedLocal_foldl _ _ (fun s x => feedLocal_reconcileFactor existing s x) (factorNames feed) st

theorem feedLocal_processMissions {feed : Feed} {st st' : GenState}
    (h : processMissions feed st = some st') : feedLocal .mission st st' := by
  obtain ⟨ci, -, hfold⟩ := Option.map_eq_some'.mp h
  exact hfold ▸ feedLocal_foldl _ _ (fun s x => feedLocal_reconcileMissionRow ci s x) feed.data st

/-- A feed section touching a different grouping preserves that
grouping's categories and both record counts. -/
theorem feedLocal_preserves {gX : Grouping} {s t : GenState} (h : feedLocal gX s t)
    (g : Grouping) (v : Str) (hne : ¬g = gX) :
    t.new_json g = s.new_json g ∧
    unmappedCountFor t.unmapped g v = unmappedCountFor s.unmapped g v ∧
    additionsCountFor t.additions g v = additionsCountFor s.additions g v := by
  obtain ⟨m, ⟨d, ha, ta⟩, ⟨e, hu, tu⟩⟩ := h
  refine ⟨m g hne, ?_, ?_⟩
  · rw [unmappedCountFor, hu, List.countP_append, unmappedCountFor]
    have : e.countP (fun r => decide (r.1 = g ∧ r.2.1 = v)) = 0 := by
      rw [List.countP_eq_zero]
      intro r hr
      simp only [decide_eq_true_eq, not_and]
      intro hg
      exact absurd (hg ▸ tu r hr : g = gX) hne
    rw [this, Nat.add_zero]
  · rw [additionsCountFor, ha, List.countP_append, additionsCountFor]
    have : d.countP (fun r => decide (r.1 = g ∧ r.2.2 = v)) = 0 := by
      rw [List.countP_eq_zero]
      intro r hr
      simp only [decide_eq_true_eq, not_and]
      intro hg
      exact absurd (hg ▸ ta r hr : g = gX) hne
    rw [this, Nat.add_zero]

theorem not_mem_getCat_of_findCategory_none {existing : Index} {v : Str} {g : Grouping}
    (h : findCategoryForValue existing v g = none) :
    ∀ cat, ¬v ∈ getCat (existing g) cat := by
  intro cat hmem
  obtain ⟨p, hp, -, hv⟩ := pairs_of_mem_getCat _ _ _ hmem
  unfold findCategoryForValue at h
  rw [Option.map_eq_none'] at h
  have hnone := List.find?_eq_none.mp h p hp
  apply hnone
  exact List.any_eq_true.mpr ⟨v, hv, by simp⟩

/-- Either the unmatched value has been routed to the fallback category
and recorded exactly once, or it has not appeared yet and has no record. -/
def fallbackInv (g : Grouping) (fb v : Str) (st : GenState) : Prop :=
  (v ∈ getCat (st.new_json g) fb ∧ unmappedCountFor st.unmapped g v = 1) ∨
  (¬v ∈ getCat (st.new_json g) fb ∧ unmappedCountFor st.unmapped g v = 0)

theorem unmappedCountFor_append_self (l : List (Grouping × Str × Str)) (g : Grouping)
    (v osdId : Str) :
    unmappedCountFor (l ++ [(g, v, osdId)]) g v = unmappedCountFor l g v + 1 := by
  rw [unmappedCountFor, List.countP_append, unmappedCountFor]
  simp [List.countP_cons]

theorem unmappedCountFor_append_other (l : List (Grouping × Str × Str)) (g : Grouping)
    (v w osdId : Str) (hne : ¬w = v) :
    unmappedCountFor (l ++ [(g, w, osdId)]) g v = unmappedCountFor l g v := by
  rw [unmappedCountFor, List.countP_append, unmappedCountFor]
  simp [List.countP_cons, hne]

theorem additionsCountFor_append_other (l : List (Grouping × Str × Str)) (g : Grouping)
    (cat v w : Str) (hne : ¬w = v) :
    additionsCountFor (l ++ [(g, cat, w)]) g v = additionsCountFor l g v := by
  rw [additionsCountFor, List.countP_append, additionsCountFor]
  simp [List.countP_cons, hne]

theorem C4_row_step (existing : Index) (g : Grouping) (fb : Str) (colIdx : Nat) (v : Str)
    (hnone : findCategoryForValue existing v g = none) (hv : ¬v = [])
    (st : GenState) (row : List Str)
    (hinv : fallbackInv g fb v st) (hac : additionsCountFor st.additions g v = 0) :
    fallbackInv g fb v (reconcileRow existing g fb colIdx st row) ∧
    additionsCountFor (reconcileRow existing g fb colIdx st row).additions g v = 0 ∧
    (rowGet row colIdx = v →
      v ∈ getCat ((reconcileRow existing g fb colIdx st row).new_json g) fb ∧
      unmappedCountFor (reconcileRow existing g fb colIdx st row).unmapped g v = 1) := by
  unfold reconcileRow
  dsimp only
  by_cases hw : rowGet row colIdx = []
  · rw [if_pos hw]
    exact ⟨hinv, hac, fun hwv => absurd (hwv ▸ hw) hv⟩
  · rw [if_neg hw]
    by_cases hwv : rowGet row colIdx = v
    · rw [hwv, hnone]
      dsimp only
      rcases hinv with ⟨hmem, hcount⟩ | ⟨hnm, hcount⟩
      · rw [if_pos hmem]
        exact ⟨Or.inl ⟨hmem, hcount⟩, hac, fun _ => ⟨hmem, hcount⟩⟩
      · rw [if_neg hnm]
        have hmem' : v ∈ getCat
            ((updateIdx st.new_json g (addVal (st.new_json g) fb v)) g) fb := by
          rw [getCat_updateIdx, if_pos rfl]
          exact mem_getCat_addVal_self _ _ _
        have hcount' : unmappedCountFor (st.unmapped ++ [(g, v, rowGet row 0)]) g v = 1 := by
          rw [unmappedCountFor_append_self, hcount]
        exact ⟨Or.inl ⟨hmem', hcount'⟩, hac, fun _ => ⟨hmem', hcount'⟩⟩
    · cases hf : findCategoryForValue existing (rowGet row colIdx) g with
      | some cat =>
        dsimp only
        split
        · exact ⟨hinv, hac, fun hc => absurd hc hwv⟩
        · have hiff : ∀ u ∈ getCat (st.new_json g) fb, u ∈ getCat
              ((updateIdx st.new_json g (addVal (st.new_json g) cat (rowGet row colIdx))) g)
              fb := by
            intro u hu
            rw [getCat_updateIdx, if_pos rfl]
            exact mem_getCat_addVal_of_mem _ _ _ _ _ hu
          have hiff2 : ¬v ∈ getCat (st.new_json g) fb → ¬v ∈ getCat
              ((updateIdx st.new_json g (addVal (st.new_json g) cat (rowGet row colIdx))) g)
              fb := by
            intro hnm hmem
            rw [getCat_updateIdx, if_pos rfl] at hmem
            rcases (mem_getCat_addVal _ _ _ _ _).mp hmem with h | ⟨-, h⟩
            · exact hnm h
            · exact hwv (h.symm)
          have hac' : additionsCountFor
              (st.additions ++ [(g, cat, rowGet row colIdx)]) g v = 0 := by
            rw [additionsCountFor_append_other _ _ _ _ _ hwv, hac]
          rcases hinv with ⟨hmem, hcount⟩ | ⟨hnm, hcount⟩
          · exact ⟨Or.inl ⟨hiff v hmem, hcount⟩, hac', fun hc => absurd hc hwv⟩
          · exact ⟨Or.inr ⟨hiff2 hnm, hcount⟩, hac', fun hc => absurd hc hwv⟩
      | none =>
        dsimp only
        split
        · exact ⟨hinv, hac, fun hc => absurd hc hwv⟩
        · have hiff : ∀ u ∈ getCat (st.new_json g) fb, u ∈ getCat
              ((updateIdx st.new_json g (addVal (st.new_json g) fb (rowGet row colIdx))) g)
              fb := by
            intro u hu
            rw [getCat_updateIdx, if_pos rfl]
            exact mem_getCat_addVal_of_mem _ _ _ _ _ hu
          have hiff2 : ¬v ∈ getCat (st.new_json g) fb → ¬v ∈ getCat
              ((updateIdx st.new_json g (addVal (st.new_json g) fb (rowGet row colIdx))) g)
              fb := by
            intro hnm hmem
            rw [getCat_updateIdx, if_pos rfl] at hmem
            rcases (mem_getCat_addVal _ _ _ _ _).mp hmem with h | ⟨-, h⟩
            · exact hnm h
            · exact hwv (h.symm)
          have hcount' : unmappedCountFor
              (st.unmapped ++ [(g, rowGet row colIdx, rowGet row 0)]) g v =
              unmappedCountFor st.unmapped g v :=
            unmappedCountFor_append_other _ _ _ _ _ hwv
          rcases hinv with ⟨hmem, hcount⟩ | ⟨hnm, hcount⟩
          · exact ⟨Or.inl ⟨hiff v hmem, hcount' ▸ hcount⟩, hac, fun hc => absurd hc hwv⟩
          · exact ⟨Or.inr ⟨hiff2 hnm, hcount' ▸ hcount⟩, hac, fun hc => absurd hc hwv⟩

theorem C4_rowFold (existing : Index) (g : Grouping) (fb : Str) (colIdx : Nat) (v : Str)
    (hnone : findCategoryForValue existing v g = none) (hv : ¬v = []) :
    ∀ (rows : List (List Str)) (st : GenState),
      fallbackInv g fb v st → additionsCountFor st.additions g v = 0 →
      fallbackInv g fb v (rows.foldl (reconcileRow existing g fb colIdx) st) ∧
      additionsCountFor (rows.foldl (reconcileRow existing g fb colIdx) st).additions g v = 0 ∧
      ((∃ row ∈ rows, rowGet row colIdx = v) →
        v ∈ getCat ((rows.foldl (reconcileRow existing g fb colIdx) st).new_json g) fb ∧
        unmappedCountFor (rows.foldl (reconcileRow existing g fb colIdx) st).unmapped g v = 1)
  | [], st => fun hinv hac => by
    refine ⟨hinv, hac, fun hex => ?_⟩
    obtain ⟨row, hr, -⟩ := hex
    simp at hr
  | r0 :: t, st => fun hinv hac => by
    rw [List.foldl_cons]
    obtain ⟨hinv1, hac1, hpos1⟩ :=
      C4_row_step existing g fb colIdx v hnone hv st r0 hinv hac
    obtain ⟨hinvt, hact, hpost⟩ :=
      C4_rowFold existing g fb colIdx v hnone hv t (reconcileRow existing g fb colIdx st r0)
        hinv1 hac1
    refine ⟨hinvt, hact, fun hex => ?_⟩
    rcases hex with ⟨row, hr, hval⟩
    rcases List.mem_cons.mp hr with h | h
    · subst h
      have hmem1 := (hpos1 hval).1
      have hmemt : v ∈ getCat
          ((t.foldl (reconcileRow existing g fb colIdx)
            (reconcileRow existing g fb colIdx st row)).new_json g) fb :=
        (grows_foldl _ (fun s x => grows_reconcileRow existing g fb colIdx s x) t _).1 _ _ _ hmem1
      rcases hinvt with ⟨hm, hc⟩ | ⟨hnm, -⟩
      · exact ⟨hm, hc⟩
      · exact absurd hmemt hnm
    · exact hpost ⟨row, h, hval⟩

theorem C4_factor_step (existing : Index) (v : Str)
    (hnone : findCategoryForValue existing v .factor = none)
    (st : GenState) (fn : Str)
    (hinv : fallbackInv .factor (str "other") v st)
    (hac : additionsCountFor st.additions .factor v = 0) :
    fallbackInv .factor (str "other") v (reconcileFactor existing st fn) ∧
    additionsCountFor (reconcileFactor existing st fn).additions .factor v = 0 ∧
    (fn = v →
      v ∈ getCat ((reconcileFactor existing st fn).new_json .factor) (str "other") ∧
      unmappedCountFor (reconcileFactor existing st fn).unmapped .factor v = 1) := by
  unfold reconcileFactor
  by_cases hwv : fn = v
  · rw [hwv, hnone]
    dsimp only
    rcases hinv with ⟨hmem, hcount⟩ | ⟨hnm, hcount⟩
    · rw [if_pos hmem]
      exact ⟨Or.inl ⟨hmem, hcount⟩, hac, fun _ => ⟨hmem, hcount⟩⟩
    · rw [if_neg hnm]
      have hmem' : v ∈ getCat
          ((updateIdx st.new_json .factor (addVal (st.new_json .factor) (str "other") v))
            .factor) (str "other") := by
        rw [getCat_updateIdx, if_pos rfl]
        exact mem_getCat_addVal_self _ _ _
      have hcount' : unmappedCountFor (st.unmapped ++ [(.factor, v, str "schema")]) .factor v
          = 1 := by
        rw [unmappedCountFor_append_self, hcount]
      exact ⟨Or.inl ⟨hmem', hcount'⟩, hac, fun _ => ⟨hmem', hcount'⟩⟩
  · cases hf : findCategoryForValue existing fn .factor with
    | some cat =>
      dsimp only
      split
      · exact ⟨hinv, hac, fun hc => absurd hc hwv⟩
      · have hiff : ∀ u ∈ getCat (st.new_json .factor) (str "other"), u ∈ getCat
            ((updateIdx st.new_json .factor (addVal (st.new_json .factor) cat fn)) .factor)
            (str "other") := by
          intro u hu
          rw [getCat_updateIdx, if_pos rfl]
          exact mem_getCat_addVal_of_mem _ _ _ _ _ hu
        have hiff2 : ¬v ∈ getCat (st.new_json .factor) (str "other") → ¬v ∈ getCat
            ((updateIdx st.new_json .factor (addVal (st.new_json .factor) cat fn)) .factor)
            (str "other") := by
          intro hnm hmem
          rw [getCat_updateIdx, if_pos rfl] at hmem
          rcases (mem_getCat_addVal _ _ _ _ _).mp hmem with h | ⟨-, h⟩
          · exact hnm h
          · exact hwv (h.symm)
        have hac' : additionsCountFor (st.additions ++ [(.factor, cat, fn)]) .factor v = 0 := by
          rw [additionsCountFor_append_other _ _ _ _ _ hwv, hac]
        rcases hinv with ⟨hmem, hcount⟩ | ⟨hnm, hcount⟩
        · exact ⟨Or.inl ⟨hiff v hmem, hcount⟩, hac', fun hc => absurd hc hwv⟩
        · exact ⟨Or.inr ⟨hiff2 hnm, hcount⟩, hac', fun hc => absurd hc hwv⟩
    | none =>
      dsimp only
      split
      · exact ⟨hinv, hac, fun hc => absurd hc hwv⟩
      · have hiff : ∀ u ∈ getCat (st.new_json .factor) (str "other"), u ∈ getCat
            ((updateIdx st.new_json .factor (addVal (st.new_json .factor) (str "other") fn))
              .factor) (str "other") := by
          intro u hu
          rw [getCat_updateIdx, if_pos rfl]
          exact mem_getCat_addVal_of_mem _ _ _ _ _ hu
        have hiff2 : ¬v ∈ getCat (st.new_json .factor) (str "other") → ¬v ∈ getCat
            ((updateIdx st.new_json .factor (addVal (st.new_json .factor) (str "other") fn))
              .factor) (str "other") := by
          intro hnm hmem
          rw [getCat_updateIdx, if_pos rfl] at hmem
          rcases (mem_getCat_addVal _ _ _ _ _).mp hmem with h | ⟨-, h⟩
          · exact hnm h
          · exact hwv (h.symm)
        have hcount' : unmappedCountFor (st.unmapped ++ [(.factor, fn, str "schema")])
            .factor v = unmappedCountFor st.unmapped .factor v :=
          unmappedCountFor_append_other _ _ _ _ _ hwv
        rcases hinv with ⟨hmem, hcount⟩ | ⟨hnm, hcount⟩
        · exact ⟨Or.inl ⟨hiff v hmem, hcount' ▸ hcount⟩, hac, fun hc => absurd hc hwv⟩
        · exact ⟨Or.inr ⟨hiff2 hnm, hcount' ▸ hcount⟩, hac, fun hc => absurd hc hwv⟩

theorem C4_factorFold (existing : Index) (v : Str)
    (hnone : findCategoryForValue existing v .factor = none) :
    ∀ (l : List Str) (st : GenState),
      fallbackInv .factor (str "other") v st →
      additionsCountFor st.additions .factor v = 0 →
      fallbackInv .factor (str "other") v (l.foldl (reconcileFactor existing) st) ∧
      additionsCountFor (l.foldl (reconcileFactor existing) st).additions .factor v = 0 ∧
      (v ∈ l →
        v ∈ getCat ((l.foldl (reconcileFactor existing) st).new_json .factor) (str "other") ∧
        unmappedCountFor (l.foldl (reconcileFactor existing) st).unmapped .factor v = 1)
  | [], _ => fun hinv hac => ⟨hinv, hac, fun hm => by simp at hm⟩
  | f0 :: t, st => fun hinv hac => by
    rw [List.foldl_cons]
    obtain ⟨hinv1, hac1, hpos1⟩ := C4_factor_step existing v hnone st f0 hinv hac
    obtain ⟨hinvt, hact, hpost⟩ :=
      C4_factorFold existing v hnone t (reconcileFactor existing st f0) hinv1 hac1
    refine ⟨hinvt, hact, fun hm => ?_⟩
    rcases List.mem_cons.mp hm with h | h
    · have hmem1 := (hpos1 h.symm).1
      have hmemt : v ∈ getCat
          ((t.foldl (reconcileFactor existing) (reconcileFactor existing st f0)).new_json
            .factor) (str "other") :=
        (grows_foldl _ (fun s x => grows_reconcileFactor existing s x) t _).1 _ _ _ hmem1
      rcases hinvt with ⟨hmm, hc⟩ | ⟨hnm, -⟩
      · exact ⟨hmm, hc⟩
      · exact absurd hmemt hnm
    · exact hpost h

/-- Either the catch-all mission piece has been inserted into Other
Missions and recorded exactly once, or neither has happened. -/
def missionOtherInv (v : Str) (st : GenState) : Prop :=
  (v ∈ getCat (st.new_json .mission) (str "Other Missions") ∧
    unmappedCountFor st.unmapped .mission v = 1) ∨
  (¬v ∈ getCat (st.new_json .mission) (str "Other Missions") ∧
    unmappedCountFor st.unmapped .mission v = 0)

theorem C4_missionPiece_step (v : Str) (hcat : categorizeMission v = str "Other Missions")
    (hv : ¬v = []) (osdId : Str) (st : GenState) (m : Str)
    (hinv : missionOtherInv v st) :
    missionOtherInv v (reconcileMissionPiece osdId st m) ∧
    (m = v →
      v ∈ getCat ((reconcileMissionPiece osdId st m).new_json .mission)
        (str "Other Missions") ∧
      unmappedCountFor (reconcileMissionPiece osdId st m).unmapped .mission v = 1) := by
  unfold reconcileMissionPiece
  dsimp only
  by_cases hm : m = []
  · rw [if_pos hm]
    exact ⟨hinv, fun hmv => absurd (hmv ▸ hm) hv⟩
  · rw [if_neg hm]
    by_cases hmv : m = v
    · rw [hmv, hcat]
      rcases hinv with ⟨hmem, hcount⟩ | ⟨hnm, hcount⟩
      · rw [if_pos hmem]
        exact ⟨Or.inl ⟨hmem, hcount⟩, fun _ => ⟨hmem, hcount⟩⟩
      · rw [if_neg hnm, if_pos rfl]
        have hmem' : v ∈ getCat ((updateIdx st.new_json .mission
            (addVal (st.new_json .mission) (str "Other Missions") v)) .mission)
            (str "Other Missions") := by
          rw [getCat_updateIdx, if_pos rfl]
          exact mem_getCat_addVal_self _ _ _
        have hcount' : unmappedCountFor (st.unmapped ++ [(.mission, v, osdId)]) .mission v
            = 1 := by
          rw [unmappedCountFor_append_self, hcount]
        exact ⟨Or.inl ⟨hmem', hcount'⟩, fun _ => ⟨hmem', hcount'⟩⟩
    · split
      · exact ⟨hinv, fun hc => absurd hc hmv⟩
      · have hkeep : ∀ u, ¬u = m →
            (u ∈ getCat ((updateIdx st.new_json .mission
              (addVal (st.new_json .mission) (categorizeMission m) m)) .mission)
              (str "Other Missions") ↔
             u ∈ getCat (st.new_json .mission) (str "Other Missions")) := by
          intro u hne
          rw [getCat_updateIdx, if_pos rfl, mem_getCat_addVal]
          constructor
          · rintro (h | ⟨-, h⟩)
            · exact h
            · exact absurd h hne
          · exact Or.inl
        have hvm : ¬v = m := fun h => hmv h.symm
        split
        · rcases hinv with ⟨hmem, hcount⟩ | ⟨hnm, hcount⟩
          · refine ⟨Or.inl ⟨(hkeep v hvm).mpr hmem, ?_⟩, fun hc => absurd hc hmv⟩
            rw [unmappedCountFor_append_other _ _ _ _ _ hmv, hcount]
          · refine ⟨Or.inr ⟨fun hmem => hnm ((hkeep v hvm).mp hmem), ?_⟩,
              fun hc => absurd hc hmv⟩
            rw [unmappedCountFor_append_other _ _ _ _ _ hmv, hcount]
        · rcases hinv with ⟨hmem, hcount⟩ | ⟨hnm, hcount⟩
          · exact ⟨Or.inl ⟨(hkeep v hvm).mpr hmem, hcount⟩, fun hc => absurd hc hmv⟩
          · exact ⟨Or.inr ⟨fun hmem => hnm ((hkeep v hvm).mp hmem), hcount⟩,
              fun hc => absurd hc hmv⟩

theorem C4_missionPieces_fold (v : Str) (hcat : categorizeMission v = str "Other Missions")
    (hv : ¬v = []) (osdId : Str) :
    ∀ (l : List Str) (st : GenState), missionOtherInv v st →
      missionOtherInv v (l.foldl (reconcileMissionPiece osdId) st) ∧
      (v ∈ l →
        v ∈ getCat ((l.foldl (reconcileMissionPiece osdId) st).new_json .mission)
          (str "Other Missions") ∧
        unmappedCountFor (l.foldl (reconcileMissionPiece osdId) st).unmapped .mission v = 1)
  | [], _ => fun hinv => ⟨hinv, fun hm => by simp at hm⟩
  | m0 :: t, st => fun hinv => by
    rw [List.foldl_cons]
    obtain ⟨hinv1, hpos1⟩ := C4_missionPiece_step v hcat hv osdId st m0 hinv
    obtain ⟨hinvt, hpost⟩ :=
      C4_missionPieces_fold v hcat hv osdId t (reconcileMissionPiece osdId st m0) hinv1
    refine ⟨hinvt, fun hm => ?_⟩
    rcases List.mem_cons.mp hm with h | h
    · have hmem1 := (hpos1 h.symm).1
      have hmemt : v ∈ getCat
          ((t.foldl (reconcileMissionPiece osdId)
            (reconcileMissionPiece osdId st m0)).new_json .mission) (str "Other Missions") :=
        (grows_foldl _ (fun s x => grows_reconcileMissionPiece osdId s x) t _).1 _ _ _ hmem1
      rcases hinvt with ⟨hmm, hc⟩ | ⟨hnm, -⟩
      · exact ⟨hmm, hc⟩
      · exact absurd hmemt hnm
    · exact hpost h

theorem C4_missionRow_step (colIdx : Nat) (v : Str)
    (hcat : categorizeMission v = str "Other Missions") (hv : ¬v = [])
    (st : GenState) (row : List Str) (hinv : missionOtherInv v st) :
    missionOtherInv v (reconcileMissionRow colIdx st row) ∧
    (v ∈ (splitOnChar 44 (rowGet row colIdx)).map strip →
      v ∈ getCat ((reconcileMissionRow colIdx st row).new_json .mission)
        (str "Other Missions") ∧
      unmappedCountFor (reconcileMissionRow colIdx st row).unmapped .mission v = 1) := by
  unfold reconcileMissionRow
  dsimp only
  by_cases hrv : rowGet row colIdx = []
  · rw [if_pos hrv]
    refine ⟨hinv, fun hm => ?_⟩
    rw [hrv] at hm
    simp [splitOnChar, strip, stripLeft, stripRight] at hm
    exact absurd hm hv
  · rw [if_neg hrv]
    exact C4_missionPieces_fold v hcat hv (rowGet row 0)
      ((splitOnChar 44 (rowGet row colIdx)).map strip)
      { st with all_osd_ids := addId st.all_osd_ids (rowGet row 0) } hinv

theorem C4_missionFold (colIdx : Nat) (v : Str)
    (hcat : categorizeMission v = str "Other Missions") (hv : ¬v = []) :
    ∀ (rows : List (List Str)) (st : GenState), missionOtherInv v st →
      missionOtherInv v (rows.foldl (reconcileMissionRow colIdx) st) ∧
      ((∃ row ∈ rows, v ∈ (splitOnChar 44 (rowGet row colIdx)).map strip) →
        v ∈ getCat ((rows.foldl (reconcileMissionRow colIdx) st).new_json .mission)
          (str "Other Missions") ∧
        unmappedCountFor (rows.foldl (reconcileMissionRow colIdx) st).unmapped .mission v
          = 1)
  | [], _ => fun hinv => ⟨hinv, fun hex => by
      obtain ⟨row, hr, -⟩ := hex
      simp at hr⟩
  | r0 :: t, st => fun hinv => by
    rw [List.foldl_cons]
    obtain ⟨hinv1, hpos1⟩ := C4_missionRow_step colIdx v hcat hv st r0 hinv
    obtain ⟨hinvt, hpost⟩ :=
      C4_missionFold colIdx v hcat hv t (reconcileMissionRow colIdx st r0) hinv1
    refine ⟨hinvt, fun hex => ?_⟩
    rcases hex with ⟨row, hr, hval⟩
    rcases List.mem_cons.mp hr with h | h
    · subst h
      have hmem1 := (hpos1 hval).1
      have hmemt : v ∈ getCat
          ((t.foldl (reconcileMissionRow colIdx)
            (reconcileMissionRow colIdx st row)).new_json .mission) (str "Other Missions") :=
        (grows_foldl _ (fun s x => grows_reconcileMissionRow colIdx s x) t _).1 _ _ _ hmem1
      rcases hinvt with ⟨hmm, hc⟩ | ⟨hnm, -⟩
      · exact ⟨hmm, hc⟩
      · exact absurd hmemt hnm
    · exact hpost ⟨row, h, hval⟩

theorem additions_reconcileMissionPiece (osdId : Str) (st : GenState) (m : Str) :
    (reconcileMissionPiece osdId st m).additions = st.additions := by
  unfold reconcileMissionPiece
  dsimp only
  split
  · rfl
  · split
    · rfl
    · split
      · rfl
      · rfl

theorem additions_missionPieces (osdId : Str) :
    ∀ (l : List Str) (st : GenState),
      (l.foldl (reconcileMissionPiece osdId) st).additions = st.additions
  | [], _ => rfl
  | m :: t, st => by
    rw [List.foldl_cons, additions_missionPieces osdId t _, additions_reconcileMissionPiece]

theorem additions_reconcileMissionRow (colIdx : Nat) (st : GenState) (row : List Str) :
    (reconcileMissionRow colIdx st row).additions = st.additions := by
  unfold reconcileMissionRow
  dsimp only
  split
  · rfl
  · exact additions_missionPieces _ _ _

theorem additions_missionFold (colIdx : Nat) :
    ∀ (rows : List (List Str)) (st : GenState),
      (rows.foldl (reconcileMissionRow colIdx) st).additions = st.additions
  | [], _ => rfl
  | r :: t, st => by
    rw [List.foldl_cons, additions_missionFold colIdx t _, additions_reconcileMissionRow]

theorem unmappedOther_reconcileMissionPiece (osdId : Str) (st : GenState) (m : Str) :
    ∀ r ∈ (reconcileMissionPiece osdId st m).unmapped,
      r ∈ st.unmapped ∨ (r.1 = .mission ∧ categorizeMission r.2.1 = str "Other Missions") := by
  unfold reconcileMissionPiece
  dsimp only
  split
  · exact fun _ hr => Or.inl hr
  · split
    · exact fun _ hr => Or.inl hr
    · split
      · next hother =>
        intro r hr
        rcases List.mem_append.mp hr with h | h
        · exact Or.inl h
        · rw [List.mem_singleton] at h
          refine Or.inr ⟨by rw [h], ?_⟩
          rw [h]
          exact hother
      · exact fun _ hr => Or.inl hr

theorem unmappedOther_reconcileMissionRow (colIdx : Nat) (st : GenState) (row : List Str) :
    ∀ r ∈ (reconcileMissionRow colIdx st row).unmapped,
      r ∈ st.unmapped ∨ (r.1 = .mission ∧ categorizeMission r.2.1 = str "Other Missions") := by
  unfold reconcileMissionRow
  dsimp only
  split
  · exact fun _ hr => Or.inl hr
  · exact unmapped_foldl _ _ (fun s x => unmappedOther_reconcileMissionPiece _ s x) _ _

theorem unmappedOther_processMissions {feed : Feed} {st st' : GenState}
    (h : processMissions feed st = some st') :
    ∀ r ∈ st'.unmapped,
      r ∈ st.unmapped ∨ (r.1 = .mission ∧ categorizeMission r.2.1 = str "Other Missions") := by
  obtain ⟨ci, -, hfold⟩ := Option.map_eq_some'.mp h
  exact hfold ▸ unmapped_foldl _ _ (fun s x => unmappedOther_reconcileMissionRow ci s x)
    feed.data st

theorem fallbackInv_transport {g : Grouping} {fb v : Str} {s t : GenState}
    (hjson : t.new_json g = s.new_json g)
    (hcount : unmappedCountFor t.unmapped g v = unmappedCountFor s.unmapped g v)
    (h : fallbackInv g fb v s) : fallbackInv g fb v t := by
  unfold fallbackInv
  rw [hjson, hcount]
  exact h

theorem missionOtherInv_transport {v : Str} {s t : GenState}
    (hjson : t.new_json .mission = s.new_json .mission)
    (hcount : unmappedCountFor t.unmapped .mission v = unmappedCountFor s.unmapped .mission v)
    (h : missionOtherInv v s) : missionOtherInv v t := by
  unfold missionOtherInv
  rw [hjson, hcount]
  exact h

/-- C4: an observed value with no normalized snapshot match is routed to
its grouping's designated fallback category and yields exactly one
Unmapped Record and zero Addition Records per distinct raw value,
however many rows carry it; for Mission only pieces landing in the
catch-all Other Missions category are recorded as unmapped, again
exactly once per distinct piece. -/
theorem C4_fallback_routing (existing : Index) (feeds : Feeds) (st' : GenState)
    (h : processApiData existing feeds (initState existing) = some st') :
    (∀ ia, feeds.assay.columns.findIdx? (· == assayColName) = some ia →
      ∀ v, findCategoryForValue existing v .assayTech = none → ¬v = [] →
        (∃ row ∈ feeds.assay.data, rowGet row ia = v) →
        v ∈ getCat (st'.new_json .assayTech) (str "Other Assay Types") ∧
        unmappedCountFor st'.unmapped .assayTech v = 1 ∧
        additionsCountFor st'.additions .assayTech v = 0) ∧
    (∀ io, feeds.organism.columns.findIdx? (· == organismColName) = some io →
      ∀ v, findCategoryForValue existing v .organism = none → ¬v = [] →
        (∃ row ∈ feeds.organism.data, rowGet row io = v) →
        v ∈ getCat (st'.new_json .organism) (str "Other Organisms") ∧
        unmappedCountFor st'.unmapped .organism v = 1 ∧
        additionsCountFor st'.additions .organism v = 0) ∧
    (∀ im, feeds.material.columns.findIdx? (· == materialColName) = some im →
      ∀ v, findCategoryForValue existing v .materialType = none → ¬v = [] →
        (∃ row ∈ feeds.material.data, rowGet row im = v) →
        v ∈ getCat (st'.new_json .materialType) (str "Other Materials") ∧
        unmappedCountFor st'.unmapped .materialType v = 1 ∧
        additionsCountFor st'.additions .materialType v = 0) ∧
    (∀ v, findCategoryForValue existing v .factor = none → v ∈ factorNames feeds.factor →
        v ∈ getCat (st'.new_json .factor) (str "other") ∧
        unmappedCountFor st'.unmapped .factor v = 1 ∧
        additionsCountFor st'.additions .factor v = 0) ∧
    (∀ r ∈ st'.unmapped, r.1 = .mission →
        categorizeMission r.2.1 = str "Other Missions") ∧
    (∀ ic, feeds.mission.columns.findIdx? (· == missionColName) = some ic →
      ∀ v, categorizeMission v = str "Other Missions" → ¬v = [] →
        (∃ row ∈ feeds.mission.data, v ∈ (splitOnChar 44 (rowGet row ic)).map strip) →
        v ∈ getCat (st'.new_json .mission) (str "Other Missions") ∧
        unmappedCountFor st'.unmapped .mission v = 1 ∧
        additionsCountFor st'.additions .mission v = 0) := by
  obtain ⟨ia0, io0, im0, ic0, s1, s3, s4, hia, hfa, hio, hfo, him, hfm, hic, hfc⟩ :=
    processApiData_destruct h
  have flA : feedLocal .assayTech (initState existing) s1 :=
    hfa ▸ feedLocal_foldl _ _ (fun s x => feedLocal_reconcileRow existing _ _ ia0 s x)
      feeds.assay.data (initState existing)
  have flF : feedLocal .factor s1 (processFactors existing feeds.factor s1) :=
    feedLocal_processFactors existing feeds.factor s1
  have flO : feedLocal .organism (processFactors existing feeds.factor s1) s3 :=
    hfo ▸ feedLocal_foldl _ _ (fun s x => feedLocal_reconcileRow existing _ _ io0 s x)
      feeds.organism.data _
  have flM : feedLocal .materialType s3 s4 :=
    hfm ▸ feedLocal_foldl _ _ (fun s x => feedLocal_reconcileRow existing _ _ im0 s x)
      feeds.material.data s3
  have flMi : feedLocal .mission s4 st' :=
    hfc ▸ feedLocal_foldl _ _ (fun s x => feedLocal_reconcileMissionRow ic0 s x)
      feeds.mission.data s4
  refine ⟨?_, ?_, ?_, ?_, ?_, ?_⟩
  · intro ia hia2 v hnone hv hex
    obtain rfl : ia0 = ia := Option.some.inj (hia.symm.trans hia2)
    have hinv0 : fallbackInv .assayTech (str "Other Assay Types") v (initState existing) :=
      Or.inr ⟨not_mem_getCat_of_findCategory_none hnone _, rfl⟩
    obtain ⟨inv1, ac1, hocc⟩ := C4_rowFold existing .assayTech (str "Other Assay Types") ia0 v
      hnone hv feeds.assay.data (initState existing) hinv0 rfl
    rw [hfa] at ac1 hocc
    obtain ⟨hmem1, hcnt1⟩ := hocc hex
    have pF := feedLocal_preserves flF .assayTech v (by decide)
    have pO := feedLocal_preserves flO .assayTech v (by decide)
    have pM := feedLocal_preserves flM .assayTech v (by decide)
    have pMi := feedLocal_preserves flMi .assayTech v (by decide)
    refine ⟨?_, ?_, ?_⟩
    · rw [pMi.1, pM.1, pO.1, pF.1]
      exact hmem1
    · rw [pMi.2.1, pM.2.1, pO.2.1, pF.2.1]
      exact hcnt1
    · rw [pMi.2.2, pM.2.2, pO.2.2, pF.2.2]
      exact ac1
  · intro io hio2 v hnone hv hex
    obtain rfl : io0 = io := Option.some.inj (hio.symm.trans hio2)
    have hinv0 : fallbackInv .organism (str "Other Organisms") v (initState existing) :=
      Or.inr ⟨not_mem_getCat_of_findCategory_none hnone _, rfl⟩
    have pA := feedLocal_preserves flA .organism v (by decide)
    have pF := feedLocal_preserves flF .organism v (by decide)
    have hinv2 : fallbackInv .organism (str "Other Organisms") v
        (processFactors existing feeds.factor s1) :=
      fallbackInv_transport (pF.1.trans pA.1) (pF.2.1.trans pA.2.1) hinv0
    have hac2 : additionsCountFor (processFactors existing feeds.factor s1).additions
        .organism v = 0 := by
      rw [pF.2.2, pA.2.2]
      rfl
    obtain ⟨inv3, ac3, hocc⟩ := C4_rowFold existing .organism (str "Other Organisms") io0 v
      hnone hv feeds.organism.data (processFactors existing feeds.factor s1) hinv2 hac2
    rw [hfo] at ac3 hocc
    obtain ⟨hmem3, hcnt3⟩ := hocc hex
    have pM := feedLocal_preserves flM .organism v (by decide)
    have pMi := feedLocal_preserves flMi .organism v (by decide)
    refine ⟨?_, ?_, ?_⟩
    · rw [pMi.1, pM.1]
      exact hmem3
    · rw [pMi.2.1, pM.2.1]
      exact hcnt3
    · rw [pMi.2.2, pM.2.2]
      exact ac3
  · intro im him2 v hnone hv hex
    obtain rfl : im0 = im := Option.some.inj (him.symm.trans him2)
    have hinv0 : fallbackInv .materialType (str "Other Materials") v (initState existing) :=
      Or.inr ⟨not_mem_getCat_of_findCategory_none hnone _, rfl⟩
    have pA := feedLocal_preserves flA .materialType v (by decide)
    have pF := feedLocal_preserves flF .materialType v (by decide)
    have pO := feedLocal_preserves flO .materialType v (by decide)
    have hinv3 : fallbackInv .materialType (str "Other Materials") v s3 :=
      fallbackInv_transport (pO.1.trans (pF.1.trans pA.1))
        (pO.2.1.trans (pF.2.1.trans pA.2.1)) hinv0
    have hac3 : additionsCountFor s3.additions .materialType v = 0 := by
      rw [pO.2.2, pF.2.2, pA.2.2]
      rfl
    obtain ⟨inv4, ac4, hocc⟩ := C4_rowFold existing .materialType (str "Other Materials") im0 v
      hnone hv feeds.material.data s3 hinv3 hac3
    rw [hfm] at ac4 hocc
    obtain ⟨hmem4, hcnt4⟩ := hocc hex
    have pMi := feedLocal_preserves flMi .materialType v (by decide)
    refine ⟨?_, ?_, ?_⟩
    · rw [pMi.1]
      exact hmem4
    · rw [pMi.2.1]
      exact hcnt4
    · rw [pMi.2.2]
      exact ac4
  · intro v hnone hmemf
    have hinv0 : fallbackInv .factor (str "other") v (initState existing) :=
      Or.inr ⟨not_mem_getCat_of_findCategory_none hnone _, rfl⟩
    have pA := feedLocal_preserves flA .factor v (by decide)
    have hinv1 : fallbackInv .factor (str "other") v s1 :=
      fallbackInv_transport pA.1 pA.2.1 hinv0
    have hac1 : additionsCountFor s1.additions .factor v = 0 := by
      rw [pA.2.2]
      rfl
    obtain ⟨inv2, ac2, hocc⟩ := C4_factorFold existing v hnone (factorNames feeds.factor) s1
      hinv1 hac1
    obtain ⟨hmem2, hcnt2⟩ := hocc hmemf
    have pO := feedLocal_preserves flO .factor v (by decide)
    have pM := feedLocal_preserves flM .factor v (by decide)
    have pMi := feedLocal_preserves flMi .factor v (by decide)
    refine ⟨?_, ?_, ?_⟩
    · rw [pMi.1, pM.1, pO.1]
      exact hmem2
    · rw [pMi.2.1, pM.2.1, pO.2.1]
      exact hcnt2
    · rw [pMi.2.2, pM.2.2, pO.2.2]
      exact ac2
  · intro r hr hrf
    have h5 : ∀ r ∈ st'.unmapped, r ∈ s4.unmapped ∨
        (r.1 = .mission ∧ categorizeMission r.2.1 = str "Other Missions") :=
      hfc ▸ unmapped_foldl _ _ (fun s x => unmappedOther_reconcileMissionRow ic0 s x)
        feeds.mission.data s4
    have h4 : ∀ r ∈ s4.unmapped, r ∈ s3.unmapped ∨ r.1 = .materialType :=
      hfm ▸ unmapped_foldl _ _ (fun s x => unmapped_reconcileRow existing _ _ im0 s x)
        feeds.material.data s3
    have h3 : ∀ r ∈ s3.unmapped, r ∈ (processFactors existing feeds.factor s1).unmapped ∨
        r.1 = .organism :=
      hfo ▸ unmapped_foldl _ _ (fun s x => unmapped_reconcileRow existing _ _ io0 s x)
        feeds.organism.data _
    have h2 := unmapped_processFactors existing feeds.factor s1
    have h1 : ∀ r ∈ s1.unmapped, r ∈ (initState existing).unmapped ∨ r.1 = .assayTech :=
      hfa ▸ unmapped_foldl _ _ (fun s x => unmapped_reconcileRow existing _ _ ia0 s x)
        feeds.assay.data (initState existing)
    rcases h5 r hr with hr4 | hg
    · rcases h4 r hr4 with hr3 | hg
      · rcases h3 r hr3 with hr2 | hg
        · rcases h2 r hr2 with hr1 | hg
          · rcases h1 r hr1 with hr0 | hg
            · simp [initState] at hr0
            · exact absurd (hg.symm.trans hrf) (by decide)
          · exact absurd (hg.1.symm.trans hrf) (by decide)
        · exact absurd (hg.symm.trans hrf) (by decide)
      · exact absurd (hg.symm.trans hrf) (by decide)
    · exact hg.2
  · intro ic hic2 v hcat hv hex
    obtain rfl : ic0 = ic := Option.some.inj (hic.symm.trans hic2)
    have hinv0 : missionOtherInv v (initState existing) :=
      Or.inr ⟨List.not_mem_nil v, rfl⟩
    have pA := feedLocal_preserves flA .mission v (by decide)
    have pF := feedLocal_preserves flF .mission v (by decide)
    have pO := feedLocal_preserves flO .mission v (by decide)
    have pM := feedLocal_preserves flM .mission v (by decide)
    have hinv4 : missionOtherInv v s4 :=
      missionOtherInv_transport (pM.1.trans (pO.1.trans (pF.1.trans pA.1)))
        (pM.2.1.trans (pO.2.1.trans (pF.2.1.trans pA.2.1))) hinv0
    obtain ⟨invf, hocc⟩ := C4_missionFold ic0 v hcat hv feeds.mission.data s4 hinv4
    rw [hfc] at hocc
    obtain ⟨hmemf, hcntf⟩ := hocc hex
    refine ⟨hmemf, hcntf, ?_⟩
    have hstadd : st'.additions = s4.additions :=
      hfc ▸ additions_missionFold ic0 feeds.mission.data s4
    rw [hstadd, pM.2.2, pO.2.2, pF.2.2, pA.2.2]
    rfl

/-- A small concrete snapshot index shared by the witnesses: two known
categories with one value each. -/
def exFix : Index :=
  fun g => match g with
  | .organism => [(str "Rodents", [str "Mus musculus"])]
  | .assayTech => [(str "Sequencing", [str "RNA-Seq"])]
  | _ => []

/-- Concrete observation feeds shared by the witnesses: one lowercase
organism variant, one already-present assay value, one unmatched factor
column, and one composite mission row with an unmapped piece. -/
def feedsFix : Feeds :=
  ⟨⟨[str "id", assayColName], [[str "OSD-1", str "RNA-Seq"]]⟩,
   ⟨[str "assay.factor value.Spaceflight"], []⟩,
   ⟨[str "id", organismColName], [[str "OSD-2", str "mus musculus"]]⟩,
   ⟨[str "id", materialColName], []⟩,
   ⟨[str "id", missionColName], [[str "OSD-3", str "RR-5, XYZ"]]⟩⟩

def stFix : GenState :=
  (processApiData exFix feedsFix (initState exFix)).getD (initState exFix)

theorem C1_completeness_invariant_witness :
    (∀ g ∈ fiveGroupings, ∀ p ∈ exFix g, ∀ v ∈ p.2,
      ∃ v', v' ∈ getCat (stFix.new_json g) p.1 ∧ norm v' = norm v) ∧
    verifyCompleteness exFix stFix.new_json = true :=
  C1_completeness_invariant exFix feedsFix stFix (by intro g; cases g <;> decide) rfl

theorem C4_fallback_routing_witness :
    (str "Spaceflight" ∈ getCat (stFix.new_json .factor) (str "other") ∧
     unmappedCountFor stFix.unmapped .factor (str "Spaceflight") = 1 ∧
     additionsCountFor stFix.additions .factor (str "Spaceflight") = 0) ∧
    (str "XYZ" ∈ getCat (stFix.new_json .mission) (str "Other Missions") ∧
     unmappedCountFor stFix.unmapped .mission (str "XYZ") = 1 ∧
     additionsCountFor stFix.additions .mission (str "XYZ") = 0) :=
  ⟨(C4_fallback_routing exFix feedsFix stFix rfl).2.2.2.1 (str "Spaceflight")
      (by decide) (by decide),
   (C4_fallback_routing exFix feedsFix stFix rfl).2.2.2.2.2 1 (by decide) (str "XYZ")
      (by decide) (by decide)
      ⟨[str "OSD-3", str "RR-5, XYZ"], by decide, by decide⟩⟩

theorem C5_reconciliation_idempotent_witness :
    ((processApiData exFix feedsFix stFix).getD stFix).additions = stFix.additions ∧
    ((processApiData exFix feedsFix stFix).getD stFix).unmapped = stFix.unmapped ∧
    ((processApiData exFix feedsFix stFix).getD stFix).additions.length =
      stFix.additions.length ∧
    ((processApiData exFix feedsFix stFix).getD stFix).unmapped.length =
      stFix.unmapped.length :=
  C5_reconciliation_idempotent exFix feedsFix (initState exFix) stFix
    ((processApiData exFix feedsFix stFix).getD stFix) rfl rfl

/-- C8: when processing completes, the run always produces all three
output artifacts together with the verification verdict, and main exits
0 exactly when verification succeeds and 1 when it fails; an unhandled
processing error exits 1 without artifacts. -/
theorem C8_exit_codes (existing : Index) (feeds : Feeds) (st : GenState) :
    (∀ st', processApiData existing feeds st = some st' →
      run existing feeds st =
        some (verifyCompleteness existing st'.new_json, saveOutputs st') ∧
      saveOutputs st' = ⟨generateOutputJson st'.new_json, st'.additions, st'.unmapped⟩ ∧
      mainExit existing feeds st =
        (if verifyCompleteness existing st'.new_json then 0 else 1)) ∧
    (processApiData existing feeds st = none → mainExit existing feeds st = 1) := by
  constructor
  · intro st' h
    have hrun : run existing feeds st =
        some (verifyCompleteness existing st'.new_json, saveOutputs st') := by
      rw [run, h]
      rfl
    refine ⟨hrun, rfl, ?_⟩
    rw [mainExit, hrun]
    cases hb : verifyCompleteness existing st'.new_json
    · rfl
    · rfl
  · intro h
    rw [mainExit, run, h]
    rfl

/-- Feeds with valid columns but no data rows: nothing is reconciled, so
a non-empty snapshot makes verification fail. -/
def feedsEmptyFix : Feeds :=
  ⟨⟨[str "id", assayColName], []⟩, ⟨[], []⟩, ⟨[str "id", organismColName], []⟩,
   ⟨[str "id", materialColName], []⟩, ⟨[str "id", missionColName], []⟩⟩

/-- Feeds whose assay feed is missing its required column: processing
raises, modelling the unhandled-error path. -/
def feedsBadFix : Feeds := ⟨⟨[], []⟩, ⟨[], []⟩, ⟨[], []⟩, ⟨[], []⟩, ⟨[], []⟩⟩

def stC8 : GenState :=
  (processApiData exFix feedsEmptyFix (initState emptyIndex)).getD (initState emptyIndex)

theorem C8_exit_codes_witness :
    run exFix feedsEmptyFix (initState emptyIndex) =
      some (verifyCompleteness exFix stC8.new_json, saveOutputs stC8) ∧
    mainExit exFix feedsEmptyFix (initState emptyIndex) = 1 ∧
    mainExit exFix feedsBadFix (initState exFix) = 1 :=
  ⟨((C8_exit_codes exFix feedsEmptyFix (initState emptyIndex)).1 stC8 rfl).1,
   by
     rw [((C8_exit_codes exFix feedsEmptyFix (initState emptyIndex)).1 stC8 rfl).2.2]
     decide,
   (C8_exit_codes exFix feedsBadFix (initState exFix)).2 rfl⟩

theorem C10_factor_schema_identifier_witness :
    ((Grouping.factor, str "Spaceflight", str "schema") : Grouping × Str × Str).2.2 =
      str "schema" ∧
    (processFactors exFix feedsFix.factor (initState exFix)).all_osd_ids =
      (initState exFix).all_osd_ids :=
  ⟨(C10_factor_schema_identifier exFix feedsFix stFix rfl).1
      (Grouping.factor, str "Spaceflight", str "schema") (by decide) rfl,
   (C10_factor_schema_identifier exFix feedsFix stFix rfl).2.1 feedsFix.factor
     (initState exFix)⟩

/-- C9: the normalizer is idempotent, and case/whitespace variants
collapse to one key, witnessed on the spec's two examples. -/
theorem C9_norm_idempotent :
    (∀ s : Str, norm (norm s) = norm s) ∧
    norm (str " Mus musculus ") = str "mus musculus" ∧
    norm (str "MUS MUSCULUS") = str "mus musculus" := by
  refine ⟨fun s => ?_, by decide, by decide⟩
  by_cases h : s = []
  · subst h
    rfl
  · have h1 : norm s = lowerStr (strip s) := by rw [norm_def, if_neg h]
    rw [h1]
    by_cases h2 : lowerStr (strip s) = []
    · rw [h2]
      rfl
    · rw [norm_def, if_neg h2, strip_lowerStr, strip_idem, lowerStr_idem]
example : categorizeMission (str "RR-5") = str "Rodent Research" := by decide
example : categorizeMission (str "Expedition 45") = str "ISS Expeditions" := by decide
example : (splitOnChar 44 (str "RR-5, Expedition 45")).map strip =
    [str "RR-5", str "Expedition 45"] := by decide
